import Mathlib

/-!
# OGR: threshold segmentation, edge detection and Hough voting (`ogr.c`)

A shallow embedding of the detection pipeline of `ogr.c` and of its P3 reader and writer.

* A raster (`ppm`) is its width, its height and three byte buffers, kept as lists of
  naturals; `ppm.wf` says that the buffers hold `w*h` bytes and that `w`, `h` and `w*h` fit
  the C `int` the program stores them in, so that `s = w*h` is the product itself.
* Indices and offsets are integers: `int` overflow of the sums `i+x`, `i+y*w` and
  `i+x+y*w` is not part of the embedding.
* Every array access of the C code is a checked access here: a stage returns `none` exactly
  when the C code would read or write outside a buffer (undefined behaviour).
* The Hough stage has a second form, `draw_step_buf` to `find_points_buf`, that follows
  the same code past an increment outside the buffers, with the three buffers as they are.
* Double arithmetic is IEEE-754 binary64, round to nearest, ties to even, on non-negative
  values kept as naturals in units of a fixed power of two (`rne53`).
* `cos` and `sin` belong to the C library: `draw_circle` takes the 360 truncated offsets
  `((int)(R*cos(deg*DEG_TO_RAD)), (int)(R*sin(deg*DEG_TO_RAD)))` that a radius determines
  as a table `circ : Nat → Int × Int`.
* The P3 text that `ppm_in` reads and `ppm_out` writes is a list of character codes; the
  `scanf` and `printf` directives the two functions use are written out as functions on it.
-/

namespace OGR

/-! ## Data model -/

/-- PPM image structure: `w`, `h`, `reds`, `greens`, `blues`. -/
structure ppm where
  w : Nat
  h : Nat
  reds : List Nat
  greens : List Nat
  blues : List Nat
deriving DecidableEq, Repr

/-- The list of found points (`struct point_linked_list`), head first. The coordinates are
doubles that hold the integers `i % w` and `i / w`. -/
abbrev PLL := List (Nat × Nat)

/-- Add plot point to list of found points: the new node becomes the head. -/
def pll_add (list : PLL) (x y : Nat) : PLL := (x, y) :: list

/-- `#define CUTOFF_LEVEL 150`. -/
def CUTOFF_LEVEL : Nat := 150

/-- A raster as the program holds it: three buffers of `w*h` bytes, with `w`, `h` and
`w*h` within the range of the C `int` they are copied to. -/
def ppm.wf (img : ppm) : Prop :=
  img.reds.length = img.w * img.h ∧ img.greens.length = img.w * img.h ∧
  img.blues.length = img.w * img.h ∧
  img.w < 2 ^ 31 ∧ img.h < 2 ^ 31 ∧ img.w * img.h < 2 ^ 31 ∧
  (∀ v ∈ img.reds, v < 256) ∧ (∀ v ∈ img.greens, v < 256) ∧ (∀ v ∈ img.blues, v < 256)

/-- The pixel at index `i` as (red, green, blue), `(0,0,0)` outside the buffers. -/
def ppm.px (img : ppm) (i : Nat) : Nat × Nat × Nat :=
  (img.reds.getD i 0, img.greens.getD i 0, img.blues.getD i 0)

/-- Checked write `l[i] = v`. -/
def wr (l : List Nat) (i : Nat) (v : Nat) : Option (List Nat) :=
  if i < l.length then some (l.set i v) else none

/-- Checked read `l[i]` at a C `int` index. -/
def rd (l : List Nat) (i : Int) : Option Nat :=
  if 0 ≤ i then l[i.toNat]? else none

/-- The three stores `img->reds[i] = r; img->greens[i] = g; img->blues[i] = b`. -/
def setPixel (img : ppm) (i : Nat) (r g b : Nat) : Option ppm :=
  (wr img.reds i r).bind fun rs =>
  (wr img.greens i g).bind fun gs =>
  (wr img.blues i b).bind fun bs =>
  some { img with reds := rs, greens := gs, blues := bs }

/-! ## Double arithmetic -/

/-- The number of bits of `n` beyond the 53 most significant ones (`fuel` bounds the
search; `n` itself is always enough). -/
def excess : Nat → Nat → Nat
  | 0, _ => 0
  | fuel + 1, n => if n < 2 ^ 53 then 0 else excess fuel (n / 2) + 1

/-- Round a natural number to 53 significant bits, to nearest, ties to even: the rounding
of every binary64 operation, on a value counted in units of a fixed power of two. -/
def rne53 (n : Nat) : Nat :=
  let e := excess n n
  let q := n / 2 ^ e
  let r := n % 2 ^ e
  let q1 := if 2 ^ e < 2 * r ∨ (2 * r = 2 ^ e ∧ q % 2 = 1) then q + 1 else q
  q1 * 2 ^ e

/-- The double `0.7152` is `0x1.6e2eb1c432ca5p-1`, this many units of `2^-53`. -/
def D7152 : Nat := 6441948906990757

/-- The double `0.0722` is `0x1.27bb2fec56d5dp-4`, this many units of `2^-56`. -/
def D0722 : Nat := 5202558289538397

/-- The double `.8` is `0x1.999999999999ap-1`, this many units of `2^-53`. -/
def D8 : Nat := 7205759403792794

/-- `return (byte) 0.2126*r + 0.7152*g + 0.0722*b;`: the cast binds to the constant
`0.2126` alone, so the first product is the integer `0*r`; the sum of doubles is converted
to `byte` on return. Doubles are in units of `2^-56`. -/
def lum (r g b : Nat) : Nat :=
  let c0 : Nat := 0
  let t0 := c0 * r
  let t1 := rne53 (8 * D7152 * g)
  let t2 := rne53 (D0722 * b)
  rne53 (rne53 (t0 * 2 ^ 56 + t1) + t2) / 2 ^ 56

/-- The test `v > max*.8` of `find_points`: `max*.8` is a double product, in units of
`2^-53`, and `v` is converted to double. -/
def gt8 (v max : Nat) : Bool :=
  decide (rne53 (max * D8) < v * 2 ^ 53)

/-! ## Segmentation and edge detection -/

/-- The body of the loop of `cutoff` at index `i`. -/
def cutoff_step (img : ppm) (i : Nat) : Option ppm :=
  img.reds[i]?.bind fun r =>
  img.greens[i]?.bind fun g =>
  img.blues[i]?.bind fun b =>
  let m := lum r g b
  if m > CUTOFF_LEVEL then setPixel img i 0 0 0 else setPixel img i 255 255 255

/-- Imparts threshold contrast for edge detection: `for (i=0; i < s; i++)`. -/
def cutoff (img : ppm) : Option ppm :=
  (List.range (img.w * img.h)).foldlM cutoff_step img

/-- The body of the loop of `edge_detect` at index `i`. -/
def edge_step (img : ppm) (i : Nat) : Option ppm :=
  img.reds[i]?.bind fun a =>
  img.reds[i + 1]?.bind fun b =>
  img.reds[i + img.w]?.bind fun c =>
  let g1 : Int := (a : Int) - (b : Int)
  let g2 : Int := (a : Int) - (c : Int)
  let g : Int := if g1.natAbs > g2.natAbs then g1 else g2
  if g > 0 then setPixel img i 0 0 255
  else if g < 0 then setPixel img i 0 255 0
  else setPixel img i 0 0 0

/-- The loop of `edge_detect`, `for (i=w; i < s-w; i++)`, on the segmented raster. -/
def edge_loop (img : ppm) : Option ppm :=
  (List.range' img.w (img.w * img.h - img.w - img.w)).foldlM edge_step img

/-- Detects edges by gradient: `cutoff(img)`, then the gradient loop, in place. -/
def edge_detect (img : ppm) : Option ppm :=
  (cutoff img).bind edge_loop

/-! ## Hough accumulation and peak extraction -/

/-- `if (l[k] < 255) l[k]++;` at a C `int` index. -/
def bump (l : List Nat) (k : Int) : Option (List Nat) :=
  (rd l k).bind fun v => if v < 255 then some (l.set k.toNat (v + 1)) else some l

/-- The body of the loop of `draw_circle` for the degree `deg`. -/
def draw_step (circ : Nat → Int × Int) (i : Int) (hough : ppm) (deg : Nat) : Option ppm :=
  let w : Int := hough.w
  let s : Int := w * hough.h
  let x := (circ deg).1
  let y := (circ deg).2
  if 0 ≤ i + x ∧ i + x < s then
    if 0 ≤ i + y * w ∧ i + y * w < s then
      (bump hough.reds (i + x + y * w)).bind fun rs =>
      (bump hough.greens (i + x + y * w)).bind fun gs =>
      (bump hough.blues (i + x + y * w)).bind fun bs =>
      some { hough with reds := rs, greens := gs, blues := bs }
    else some hough
  else some hough

/-- Offsets circle for hough transform: `for (deg = 0; deg < 360; deg ++)`. -/
def draw_circle (hough : ppm) (i : Int) (circ : Nat → Int × Int) : Option ppm :=
  (List.range 360).foldlM (draw_step circ i) hough

/-- Is the point a local max? Four comparisons, each returning `0` at once. -/
def is_local_max (img : ppm) (i : Int) (w : Int) : Option Bool :=
  (rd img.reds i).bind fun c =>
  (rd img.reds (i - 1)).bind fun l =>
  if c < l then some false else
  (rd img.reds (i + 1)).bind fun r =>
  if c < r then some false else
  (rd img.reds (i - w)).bind fun u =>
  if c < u then some false else
  (rd img.reds (i + w)).bind fun d =>
  if c < d then some false else some true

/-- The raster `hough` of `find_points` after `ppm_clone` and the three `bzero` calls. -/
def hough_zero (img : ppm) : ppm :=
  { w := img.w, h := img.h,
    reds := List.replicate (img.w * img.h) 0,
    greens := List.replicate (img.w * img.h) 0,
    blues := List.replicate (img.w * img.h) 0 }

/-- The body of the voting loop of `find_points` at index `i`. -/
def vote_step (img : ppm) (circ : Nat → Int × Int) (hough : ppm) (i : Nat) : Option ppm :=
  img.blues[i]?.bind fun b =>
  img.greens[i]?.bind fun g =>
  if b = 255 ∨ g = 255 then draw_circle hough (i : Int) circ else some hough

/-- The voting loop of `find_points`: `for (i=w; i < s-w; i++)` over the edge raster. -/
def find_points_votes (img : ppm) (circ : Nat → Int × Int) : Option ppm :=
  (List.range' img.w (img.w * img.h - img.w - img.w)).foldlM (vote_step img circ)
    (hough_zero img)

/-- The body of the maximum scan: `max = (hough->reds[i] > max) ? hough->reds[i] : max`. -/
def max_step (hough : ppm) (max : Nat) (i : Nat) : Option Nat :=
  hough.reds[i]?.bind fun v => some (if v > max then v else max)

/-- The maximum scan of `find_points`, from `max = 0`. -/
def find_points_max (hough : ppm) : Option Nat :=
  (List.range' hough.w (hough.w * hough.h - hough.w - hough.w)).foldlM (max_step hough) 0

/-- The body of the peak loop; `&&` evaluates `is_local_max` only when the first test
holds. The stores into the unused clone `h2` are at index `i`, which the read covers. -/
def peak_step (hough : ppm) (max : Nat) (centers : PLL) (i : Nat) : Option PLL :=
  hough.reds[i]?.bind fun v =>
  if gt8 v max then
    (is_local_max hough (i : Int) (hough.w : Int)).bind fun m =>
    if m then some (pll_add centers (i % hough.w) (i / hough.w)) else some centers
  else some centers

/-- The peak loop of `find_points`. -/
def find_points_peaks (hough : ppm) (max : Nat) (centers : PLL) : Option PLL :=
  (List.range' hough.w (hough.w * hough.h - hough.w - hough.w)).foldlM
    (peak_step hough max) centers

/-- Gets data points from graph: returns the vote raster `hough` and the new `*centers`. -/
def find_points (img : ppm) (circ : Nat → Int × Int) (centers : PLL) :
    Option (ppm × PLL) :=
  (find_points_votes img circ).bind fun hough =>
  (find_points_max hough).bind fun max =>
  (find_points_peaks hough max centers).bind fun cs =>
  some (hough, cs)

/-- The offsets of radius `1.5`: `(int)(1.5*cos(deg°))` is `1` up to 48° and from 312°,
`-1` from 132° to 228°; `(int)(1.5*sin(deg°))` is `1` from 42° to 138°, `-1` from 222° to
318°; `0` elsewhere. -/
def circ15 (deg : Nat) : Int × Int :=
  (if deg ≤ 48 ∨ 312 ≤ deg then 1 else if 132 ≤ deg ∧ deg ≤ 228 then -1 else 0,
   if 42 ≤ deg ∧ deg ≤ 138 then 1 else if 222 ≤ deg ∧ deg ≤ 318 then -1 else 0)

/-! ## Specification vocabulary -/

/-- The three buffers of a raster have length `s`. -/
def shape (img : ppm) (s : Nat) : Prop :=
  img.reds.length = s ∧ img.greens.length = s ∧ img.blues.length = s

/-- What `cutoff` stores for a pixel: black above the cutoff level, white otherwise. -/
def seg_px (p : Nat × Nat × Nat) : Nat × Nat × Nat :=
  if lum p.1 p.2.1 p.2.2 > CUTOFF_LEVEL then (0, 0, 0) else (255, 255, 255)

/-- The luminance as the specification words it, `0.2126*R + 0.7152*G + 0.0722*B`
truncated to a byte. -/
def lum_spec (r g b : Nat) : Nat := (2126 * r + 7152 * g + 722 * b) / 10000

/-- The colour the specification gives the edge pass at index `i` of the segmented raster
`seg`: blue for a positive gradient, green for a negative one, black for none. -/
def edge_px (seg : ppm) (i : Nat) : Nat × Nat × Nat :=
  let g1 : Int := (seg.reds.getD i 0 : Int) - (seg.reds.getD (i + 1) 0 : Int)
  let g2 : Int := (seg.reds.getD i 0 : Int) - (seg.reds.getD (i + seg.w) 0 : Int)
  let g : Int := if g1.natAbs > g2.natAbs then g1 else g2
  if g > 0 then (0, 0, 255) else if g < 0 then (0, 255, 0) else (0, 0, 0)

instance (img : ppm) : Decidable img.wf := by
  unfold ppm.wf; infer_instance

/-- Both bounds checks of `draw_circle` pass at centre `i` and degree `d`, on a raster of
width `w` and height `h`. -/
def pass (w h : Nat) (circ : Nat → Int × Int) (i d : Nat) : Bool :=
  decide ((0 ≤ (i : Int) + (circ d).1 ∧ (i : Int) + (circ d).1 < (w : Int) * (h : Int)) ∧
    (0 ≤ (i : Int) + (circ d).2 * (w : Int) ∧
      (i : Int) + (circ d).2 * (w : Int) < (w : Int) * (h : Int)))

/-- The index `i+x+y*w` that `draw_circle` increments at centre `i` and degree `d`. -/
def target (w : Nat) (circ : Nat → Int × Int) (i d : Nat) : Int :=
  (i : Int) + (circ d).1 + (circ d).2 * (w : Int)

/-- The number of degrees `d` in `0..359` whose checks pass and whose target is `p`. -/
def hits (w h : Nat) (circ : Nat → Int × Int) (i p : Nat) : Nat :=
  (List.range 360).countP fun d => pass w h circ i d && decide (target w circ i d = (p : Int))

/-- The index `i` of the edge raster is blue or green. -/
def is_edge (img : ppm) (i : Nat) : Bool :=
  decide (img.blues.getD i 0 = 255 ∨ img.greens.getD i 0 = 255)

/-- The votes that the centres in `l` cast on `p`. -/
def votes_of (img : ppm) (circ : Nat → Int × Int) (l : List Nat) (p : Nat) : Nat :=
  ((l.filter (is_edge img)).map fun i => hits img.w img.h circ i p).sum

/-- `N(p)`: the number of pairs `(i, d)` with `i` an interior edge index, `d` a degree in
`0..359`, both checks passing and `i+x+y*w = p`. -/
def votes (img : ppm) (circ : Nat → Int × Int) (p : Nat) : Nat :=
  votes_of img circ (List.range' img.w (img.w * img.h - img.w - img.w)) p

/-- The raster `st` of dimensions `w`, `h` holds at every pixel, in each channel, the
count `c` saturated at 255. -/
def counts (st : ppm) (w h : Nat) (c : Nat → Nat) : Prop :=
  st.w = w ∧ st.h = h ∧ shape st (w * h) ∧
  ∀ p, p < w * h → st.px p = (min 255 (c p), min 255 (c p), min 255 (c p))

/-- The red vote at index `i`. -/
def red (hough : ppm) (i : Nat) : Nat := hough.reds.getD i 0

/-- The 4-neighbour local maximum test as the specification words it. -/
def local_max (hough : ppm) (i : Nat) : Bool :=
  decide (red hough (i - 1) ≤ red hough i ∧ red hough (i + 1) ≤ red hough i ∧
    red hough (i - hough.w) ≤ red hough i ∧ red hough (i + hough.w) ≤ red hough i)

/-- The interior indices `[w, w*h-w)` in scan order. -/
def interior (img : ppm) : List Nat :=
  List.range' img.w (img.w * img.h - img.w - img.w)

/-- The marker centre of the pixel index `i`. -/
def center (w : Nat) (i : Nat) : Nat × Nat := (i % w, i / w)

/-- The pixel index `y*w + x` of a marker centre. -/
def center_index (w : Nat) (c : Nat × Nat) : Nat := c.2 * w + c.1

/-! ## Two small plots -/

/-- The raster that is black except for a white pixel at index 7 (3x3). -/
def plot7 : ppm :=
  ⟨3, 3, [0, 0, 0, 0, 0, 0, 0, 255, 0], [0, 0, 0, 0, 0, 0, 0, 255, 0],
    [0, 0, 0, 0, 0, 0, 0, 255, 0]⟩

/-- The edge raster of `plot7`: white first row, one blue pixel at index 4. -/
def edge7 : ppm :=
  ⟨3, 3, [255, 255, 255, 0, 0, 0, 255, 0, 255], [255, 255, 255, 0, 0, 0, 255, 0, 255],
    [255, 255, 255, 0, 255, 0, 255, 0, 255]⟩

/-- The vote raster of `edge7` at radius `1.5`. -/
def hough7 : ppm :=
  ⟨3, 3, [7, 83, 7, 83, 0, 83, 7, 83, 7], [7, 83, 7, 83, 0, 83, 7, 83, 7],
    [7, 83, 7, 83, 0, 83, 7, 83, 7]⟩

/-- The raster that is black except for a white pixel at index 8 (3x3). -/
def plot8 : ppm :=
  ⟨3, 3, [0, 0, 0, 0, 0, 0, 0, 0, 255], [0, 0, 0, 0, 0, 0, 0, 0, 255],
    [0, 0, 0, 0, 0, 0, 0, 0, 255]⟩

/-- The edge raster of `plot8`: one blue pixel at index 5, the last of the interior row. -/
def edge8 : ppm :=
  ⟨3, 3, [255, 255, 255, 0, 0, 0, 255, 255, 0], [255, 255, 255, 0, 0, 0, 255, 255, 0],
    [255, 255, 255, 0, 0, 255, 255, 255, 0]⟩

/-! ## Votes inside the buffers -/

/-- Every vote of an interior edge pixel whose two checks pass has its target inside the
buffers. -/
def in_range (img : ppm) (circ : Nat → Int × Int) : Prop :=
  ∀ i d, i ∈ interior img → is_edge img i = true → d < 360 →
    pass img.w img.h circ i d = true →
    0 ≤ target img.w circ i d ∧ target img.w circ i d < ((img.w * img.h : Nat) : Int)

/-- The colour of the edge pass at index `i` when the horizontal gradient wins the ties:
`g = g2` if `|g2| > |g1|`, else `g1`. -/
def edge_px_alt (seg : ppm) (i : Nat) : Nat × Nat × Nat :=
  let g1 : Int := (seg.reds.getD i 0 : Int) - (seg.reds.getD (i + 1) 0 : Int)
  let g2 : Int := (seg.reds.getD i 0 : Int) - (seg.reds.getD (i + seg.w) 0 : Int)
  let g : Int := if g2.natAbs > g1.natAbs then g2 else g1
  if g > 0 then (0, 0, 255) else if g < 0 then (0, 255, 0) else (0, 0, 0)

/-- The 5x5 raster that is white everywhere. -/
def white5 : ppm :=
  ⟨5, 5, List.replicate 25 255, List.replicate 25 255, List.replicate 25 255⟩

/-- The 5x5 raster that is black everywhere. -/
def black5 : ppm :=
  ⟨5, 5, List.replicate 25 0, List.replicate 25 0, List.replicate 25 0⟩

/-! ## Scenario C: one green pixel at (10,10) of a 20x20 raster, radius 5 -/

/-- The first entry `(last, v)` with `deg ≤ last` gives the value `v` of a step table. -/
def step_table : List (Nat × Int) → Nat → Int
  | [], _ => 0
  | (last, v) :: rest, deg => if deg ≤ last then v else step_table rest deg

/-- The offsets of radius `5`, with `cos` and `sin` rounded correctly:
`(int)(5*cos(deg*DEG_TO_RAD))` and `(int)(5*sin(deg*DEG_TO_RAD))`, each constant on the
runs of degrees that end at the listed degree. -/
def circ5 (deg : Nat) : Int × Int :=
  (step_table [(0, 5), (36, 4), (53, 3), (66, 2), (78, 1), (101, 0), (113, -1), (126, -2),
      (143, -3), (179, -4), (180, -5), (216, -4), (233, -3), (246, -2), (258, -1), (281, 0),
      (293, 1), (306, 2), (323, 3), (359, 4)] deg,
   step_table [(11, 0), (23, 1), (36, 2), (53, 3), (89, 4), (90, 5), (126, 4), (143, 3),
      (156, 2), (168, 1), (191, 0), (203, -1), (216, -2), (233, -3), (269, -4), (270, -5),
      (306, -4), (323, -3), (336, -2), (348, -1), (359, 0)] deg)

/-- The 20x20 raster that is white except for the pure green pixel at (10,10), index 210. -/
def white20 : ppm :=
  ⟨20, 20, List.replicate 210 255 ++ 0 :: List.replicate 189 255, List.replicate 400 255,
    List.replicate 210 255 ++ 0 :: List.replicate 189 255⟩

/-- The 20x20 raster that is black except for the pure green pixel at (10,10), index 210. -/
def black20 : ppm :=
  ⟨20, 20, List.replicate 400 0, List.replicate 210 0 ++ 255 :: List.replicate 189 0,
    List.replicate 400 0⟩

/-- The targets of the degree steps at centre `i` whose checks pass, in degree order. -/
def hit_targets (w h : Nat) (circ : Nat → Int × Int) (i : Nat) : List Int :=
  ((List.range 360).filter (pass w h circ i)).map (target w circ i)

/-- The 360 targets `210 + x + 20*y` of the circle of radius 5 around (10,10), in degree
order. -/
def targets20 : List Nat :=
  [215, 214, 214, 214, 214, 214, 214, 214, 214, 214, 214, 214, 234, 234, 234, 234, 234, 234,
   234, 234, 234, 234, 234, 234, 254, 254, 254, 254, 254, 254, 254, 254, 254, 254, 254, 254,
   254, 273, 273, 273, 273, 273, 273, 273, 273, 273, 273, 273, 273, 273, 273, 273, 273, 273,
   292, 292, 292, 292, 292, 292, 292, 292, 292, 292, 292, 292, 292, 291, 291, 291, 291, 291,
   291, 291, 291, 291, 291, 291, 291, 290, 290, 290, 290, 290, 290, 290, 290, 290, 290, 290,
   310, 290, 290, 290, 290, 290, 290, 290, 290, 290, 290, 290, 289, 289, 289, 289, 289, 289,
   289, 289, 289, 289, 289, 289, 288, 288, 288, 288, 288, 288, 288, 288, 288, 288, 288, 288,
   288, 267, 267, 267, 267, 267, 267, 267, 267, 267, 267, 267, 267, 267, 267, 267, 267, 267,
   246, 246, 246, 246, 246, 246, 246, 246, 246, 246, 246, 246, 246, 226, 226, 226, 226, 226,
   226, 226, 226, 226, 226, 226, 226, 206, 206, 206, 206, 206, 206, 206, 206, 206, 206, 206,
   205, 206, 206, 206, 206, 206, 206, 206, 206, 206, 206, 206, 186, 186, 186, 186, 186, 186,
   186, 186, 186, 186, 186, 186, 166, 166, 166, 166, 166, 166, 166, 166, 166, 166, 166, 166,
   166, 147, 147, 147, 147, 147, 147, 147, 147, 147, 147, 147, 147, 147, 147, 147, 147, 147,
   128, 128, 128, 128, 128, 128, 128, 128, 128, 128, 128, 128, 128, 129, 129, 129, 129, 129,
   129, 129, 129, 129, 129, 129, 129, 130, 130, 130, 130, 130, 130, 130, 130, 130, 130, 130,
   110, 130, 130, 130, 130, 130, 130, 130, 130, 130, 130, 130, 131, 131, 131, 131, 131, 131,
   131, 131, 131, 131, 131, 131, 132, 132, 132, 132, 132, 132, 132, 132, 132, 132, 132, 132,
   132, 153, 153, 153, 153, 153, 153, 153, 153, 153, 153, 153, 153, 153, 153, 153, 153, 153,
   174, 174, 174, 174, 174, 174, 174, 174, 174, 174, 174, 174, 174, 194, 194, 194, 194, 194,
   194, 194, 194, 194, 194, 194, 194, 214, 214, 214, 214, 214, 214, 214, 214, 214, 214, 214]

/-! ## Reading and writing the P3 text

The text is a list of character codes. `scanf` and `printf` are the C library's: the
directives that `ppm_in` and `ppm_out` use are written out here. A run of `ppm_in` that the
embedding does not follow gives `none`: a conversion that fails (the variable keeps what it
held), a comment that never ends (the inner loop does not stop), the exit through `usage`
when a dimension is 0, and a product `w*h` outside the `int` range. -/

/-- `isspace`: space, or one of `\t \n \v \f \r`. -/
def isspace (c : Nat) : Bool := decide (c = 32 ∨ (9 ≤ c ∧ c ≤ 13))

/-- `isdigit`: `'0'` to `'9'`. -/
def isdigit (c : Nat) : Bool := decide (48 ≤ c ∧ c ≤ 57)

/-- A white-space directive of `scanf`: skip all white space. -/
def skip_space : List Nat → List Nat
  | [] => []
  | c :: rest => if isspace c then skip_space rest else c :: rest

/-- A `scanf` format without conversions: a white-space character skips white space,
any other character must be the next one of the input, or `scanf` stops there. -/
def scan_lit : List Nat → List Nat → List Nat
  | [], inp => inp
  | f :: fs, inp =>
    if isspace f then scan_lit fs (skip_space inp)
    else match inp with
      | [] => []
      | c :: rest => if c = f then scan_lit fs rest else c :: rest

/-- The longest run of digits, read as a decimal number on top of `acc`. -/
def scan_digits : Nat → List Nat → Nat × List Nat
  | acc, [] => (acc, [])
  | acc, c :: rest =>
    if isdigit c then scan_digits (10 * acc + (c - 48)) rest else (acc, c :: rest)

/-- A digit sequence that must not be empty. -/
def scan_unsigned (inp : List Nat) : Option (Nat × List Nat) :=
  match inp with
  | [] => none
  | c :: _ => if isdigit c then some (scan_digits 0 inp) else none

/-- The conversions `%d` and `%u`: skip white space, take an optional sign and a
non-empty digit sequence. -/
def scan_num (inp : List Nat) : Option (Int × List Nat) :=
  match skip_space inp with
  | [] => none
  | c :: rest =>
    if c = 45 then (scan_unsigned rest).map fun r => (-(r.1 : Int), r.2)
    else if c = 43 then (scan_unsigned rest).map fun r => ((r.1 : Int), r.2)
    else (scan_unsigned (c :: rest)).map fun r => ((r.1 : Int), r.2)

/-- The decimal digits of `n` in front of `acc`, most significant first. -/
def dec_core : Nat → Nat → List Nat → List Nat
  | 0, _, acc => acc
  | fuel + 1, n, acc =>
    if n / 10 = 0 then (48 + n % 10) :: acc
    else dec_core fuel (n / 10) ((48 + n % 10) :: acc)

/-- What `%d` prints for a non-negative `int`. -/
def dec (n : Nat) : List Nat := dec_core (n + 1) n []

/-- What `%d` prints for an `unsigned int` argument: the value read as an `int`. -/
def fmt_d (v : Nat) : List Nat :=
  if v % 2 ^ 32 < 2 ^ 31 then dec (v % 2 ^ 32) else 45 :: dec (2 ^ 32 - v % 2 ^ 32)

/-- The comment loop of `ppm_in`: `in_comment` tells whether the inner loop
`while (getchar() != '\n')` is running; outside it a character other than `#` is pushed
back with `ungetc`. -/
def skip_comments : Bool → List Nat → Option (List Nat)
  | false, [] => some []
  | false, c :: rest => if c = 35 then skip_comments true rest else some (c :: rest)
  | true, [] => none
  | true, c :: rest => if c = 10 then skip_comments false rest else skip_comments true rest

/-- The loop of `ppm_in` with `n` pixels left to read: `scanf("%d %d %d\n", &r, &g, &b)`,
then the three stores of `(byte) r`, `(byte) g`, `(byte) b` at the next index. -/
def read_pixels : Nat → List Nat → ppm → Option ppm
  | 0, _, img => some img
  | n + 1, inp, img =>
    (scan_num inp).bind fun r =>
    (scan_num (skip_space r.2)).bind fun g =>
    (scan_num (skip_space g.2)).bind fun b =>
    read_pixels n (skip_space b.2)
      { img with reds := img.reds ++ [(r.1 % 256).toNat],
                 greens := img.greens ++ [(g.1 % 256).toNat],
                 blues := img.blues ++ [(b.1 % 256).toNat] }

/-- Reads ppm from stdin. -/
def ppm_in (inp : List Nat) : Option ppm :=
  (skip_comments false (scan_lit [80, 51, 10] inp)).bind fun inp1 =>
  (scan_num inp1).bind fun sw =>
  (scan_num (skip_space sw.2)).bind fun sh =>
  let w := (sw.1 % 2 ^ 32).toNat
  let h := (sh.1 % 2 ^ 32).toNat
  if w = 0 ∨ h = 0 then none
  else if 2 ^ 31 ≤ (w * h) % 2 ^ 32 then none
  else read_pixels ((w * h) % 2 ^ 32) (scan_lit [50, 53, 53, 10] (skip_space sh.2))
    { w := w, h := h, reds := [], greens := [], blues := [] }

/-- One `printf("%d\t%d\t%d\n", ...)` of `ppm_out`. -/
def out_step (img : ppm) (out : List Nat) (i : Nat) : Option (List Nat) :=
  img.reds[i]?.bind fun r =>
  img.greens[i]?.bind fun g =>
  img.blues[i]?.bind fun b =>
  some (out ++ (dec r ++ 9 :: (dec g ++ 9 :: (dec b ++ [10]))))

/-- The text that `ppm_out` prints: `"P3\n%d %d\n255\n"`, then one line per pixel for
`i` from 0 while `i < s`, with `s` the `int` that holds `w*h`. -/
def ppm_out (img : ppm) : Option (List Nat) :=
  let m := (img.w * img.h) % 2 ^ 32
  (List.range (if m < 2 ^ 31 then m else 0)).foldlM (out_step img)
    ([80, 51, 10] ++ (fmt_d img.w ++ 32 :: (fmt_d img.h ++ [10, 50, 53, 53, 10])))

/-- The number that a digit sequence denotes on top of `a`. -/
def digits_value (a : Nat) (l : List Nat) : Nat :=
  l.foldl (fun v c => 10 * v + (c - 48)) a

/-- The line that `ppm_out` prints for the pixel at index `i`. -/
def line (img : ppm) (i : Nat) : List Nat :=
  dec (img.reds.getD i 0) ++ 9 :: (dec (img.greens.getD i 0) ++ 9 ::
    (dec (img.blues.getD i 0) ++ [10]))

/-- The lines of the pixels at the indices `l`, one after the other. -/
def lines (img : ppm) : List Nat → List Nat
  | [] => []
  | i :: l => line img i ++ lines img l

/-- The input stops a digit sequence: it is empty or starts with a character that is no
digit. -/
def stops (rest : List Nat) : Prop := ∀ c t, rest = c :: t → isdigit c = false

/-! ## The three buffers in a run that leaves them

`draw_step` stops (`none`) at an increment whose index is outside `[0, w*h)`: C gives the
run no meaning from there on. The definitions below follow the same code and go on past
such an increment with the three buffers of the raster as they are: the cell that is
incremented is no cell of `reds`, `greens` or `blues`. -/

/-- A loop over `[a, a+n)` whose body never fails under an invariant runs to the end and
keeps the invariant. -/
theorem foldlM_range'_total {σ : Type} (f : σ → Nat → Option σ) (Inv : Nat → σ → Prop) :
    ∀ (n a : Nat) (st : σ), Inv a st →
      (∀ k st, a ≤ k → k < a + n → Inv k st → ∃ st1, f st k = some st1 ∧ Inv (k + 1) st1) →
      ∃ st1, (List.range' a n).foldlM f st = some st1 ∧ Inv (a + n) st1 := by
  intro n
  induction n with
  | zero => intro a st h0 _; exact ⟨st, by simp, by simpa using h0⟩
  | succ n ih =>
    intro a st h0 hstep
    obtain ⟨st1, h1, hI⟩ := hstep a st (Nat.le_refl a) (by omega) h0
    obtain ⟨st2, h2, hI2⟩ := ih (a + 1) st1 hI
      (fun k st hk hk2 hi => hstep k st (by omega) (by omega) hi)
    refine ⟨st2, ?_, ?_⟩
    · simp [List.range'_succ, h1, h2]
    · have : a + (n + 1) = a + 1 + n := by omega
      rw [this]; exact hI2

/-! ## Pixels -/

theorem wf_shape {img : ppm} (h : img.wf) : shape img (img.w * img.h) :=
  ⟨h.1, h.2.1, h.2.2.1⟩

theorem getD_set_nat (l : List Nat) (i j v : Nat) (hi : i < l.length) :
    (l.set i v).getD j 0 = if j = i then v else l.getD j 0 := by
  simp only [List.getD_eq_getElem?_getD, List.getElem?_set]
  by_cases h : j = i
  · subst h; simp [hi]
  · have : ¬ i = j := fun e => h e.symm
    simp [h, this]

/-- Three stores inside the buffers succeed and change the pixel `i` alone. -/
theorem setPixel_spec (img : ppm) (s i r g b : Nat) (hs : shape img s) (hi : i < s) :
    ∃ out, setPixel img i r g b = some out ∧ out.w = img.w ∧ out.h = img.h ∧ shape out s ∧
      ∀ j, out.px j = if j = i then (r, g, b) else img.px j := by
  obtain ⟨h1, h2, h3⟩ := hs
  refine ⟨ppm.mk img.w img.h (img.reds.set i r) (img.greens.set i g) (img.blues.set i b),
    ?_, rfl, rfl, ?_, ?_⟩
  · simp [setPixel, wr, h1, h2, h3, hi]
  · simp [shape, h1, h2, h3]
  · intro j
    simp only [ppm.px]
    rw [getD_set_nat _ _ _ _ (by omega), getD_set_nat _ _ _ _ (by omega),
      getD_set_nat _ _ _ _ (by omega)]
    by_cases h : j = i <;> simp [h]

theorem getElem?_of_lt (l : List Nat) (i : Nat) (h : i < l.length) :
    l[i]? = some (l.getD i 0) := by
  simp [List.getD_eq_getElem?_getD, List.getElem?_eq_getElem h]

/-- Two rasters of the same dimensions with the same pixels are the same raster. -/
theorem ppm_ext (a b : ppm) (s : Nat) (hw : a.w = b.w) (hh : a.h = b.h)
    (ha : shape a s) (hb : shape b s) (hp : ∀ j, j < s → a.px j = b.px j) : a = b := by
  obtain ⟨a1, a2, a3⟩ := ha
  obtain ⟨b1, b2, b3⟩ := hb
  have key : ∀ (l m : List Nat), l.length = s → m.length = s →
      (∀ j, j < s → l.getD j 0 = m.getD j 0) → l = m := by
    intro l m hl hm h
    apply List.ext_getElem (by omega)
    intro n h1 h2
    have := h n (by omega)
    simp only [List.getD_eq_getElem?_getD, List.getElem?_eq_getElem h1,
      List.getElem?_eq_getElem h2, Option.getD_some] at this
    exact this
  cases a; cases b
  simp only [ppm.mk.injEq]
  simp only [ppm.px, Prod.mk.injEq] at hp
  simp only at hw hh a1 a2 a3 b1 b2 b3
  exact ⟨hw, hh, key _ _ a1 b1 (fun j hj => (hp j hj).1),
    key _ _ a2 b2 (fun j hj => (hp j hj).2.1), key _ _ a3 b3 (fun j hj => (hp j hj).2.2)⟩

/-! ## Segmentation -/

/-- `cutoff` returns, and stores `seg_px` of the original pixel at every index. -/
theorem cutoff_spec (img : ppm) (hs : shape img (img.w * img.h)) :
    ∃ out, cutoff img = some out ∧ out.w = img.w ∧ out.h = img.h ∧
      shape out (img.w * img.h) ∧ ∀ j, j < img.w * img.h → out.px j = seg_px (img.px j) := by
  have h := foldlM_range'_total cutoff_step
    (fun k st => st.w = img.w ∧ st.h = img.h ∧ shape st (img.w * img.h) ∧
      ∀ j, st.px j = if j < k then seg_px (img.px j) else img.px j)
    (img.w * img.h) 0 img ⟨rfl, rfl, hs, by simp⟩ (by
      intro k st _ hk ⟨hw, hh, hsh, hpx⟩
      have hk : k < img.w * img.h := by omega
      have e : st.px k = img.px k := by rw [hpx k]; simp
      simp only [ppm.px, Prod.mk.injEq] at e
      obtain ⟨s1, s2, s3⟩ := hsh
      have hstep : cutoff_step st k = if lum (img.reds.getD k 0) (img.greens.getD k 0)
          (img.blues.getD k 0) > CUTOFF_LEVEL then setPixel st k 0 0 0
          else setPixel st k 255 255 255 := by
        simp only [cutoff_step]
        rw [getElem?_of_lt _ _ (by omega), getElem?_of_lt _ _ (by omega),
          getElem?_of_lt _ _ (by omega)]
        simp only [Option.some_bind, e.1, e.2.1, e.2.2]
      rw [hstep]
      have hlt : ∀ j, j ≠ k → ((j < k + 1) ↔ (j < k)) := fun j hj => by omega
      by_cases hl : lum (img.reds.getD k 0) (img.greens.getD k 0) (img.blues.getD k 0)
          > CUTOFF_LEVEL
      · obtain ⟨out, ho, ow, oh, osh, opx⟩ := setPixel_spec st _ k 0 0 0 ⟨s1, s2, s3⟩ hk
        rw [if_pos hl]
        refine ⟨out, ho, by omega, by omega, osh, ?_⟩
        intro j
        rw [opx j]
        by_cases hj : j = k
        · subst hj
          simp only [seg_px, ppm.px, if_pos hl, if_true, Nat.lt_succ_self]
        · rw [hpx j, if_neg hj]
          simp only [hlt j hj]
      · obtain ⟨out, ho, ow, oh, osh, opx⟩ := setPixel_spec st _ k 255 255 255 ⟨s1, s2, s3⟩ hk
        rw [if_neg hl]
        refine ⟨out, ho, by omega, by omega, osh, ?_⟩
        intro j
        rw [opx j]
        by_cases hj : j = k
        · subst hj
          simp only [seg_px, ppm.px, if_neg hl, if_true, Nat.lt_succ_self]
        · rw [hpx j, if_neg hj]
          simp only [hlt j hj])
  obtain ⟨out, ho, hw, hh, hsh, hpx⟩ := h
  refine ⟨out, ?_, hw, hh, hsh, ?_⟩
  · simpa [cutoff, List.range_eq_range'] using ho
  · intro j hj
    rw [hpx j]; simp [hj]

theorem seg_px_cases (p : Nat × Nat × Nat) :
    seg_px p = (0, 0, 0) ∨ seg_px p = (255, 255, 255) := by
  unfold seg_px
  split
  · exact Or.inl rfl
  · exact Or.inr rfl

theorem seg_px_black : seg_px (0, 0, 0) = (255, 255, 255) := by decide

theorem seg_px_white : seg_px (255, 255, 255) = (0, 0, 0) := by decide

theorem seg_px_thrice (p : Nat × Nat × Nat) : seg_px (seg_px (seg_px p)) = seg_px p := by
  rcases seg_px_cases p with h | h
  · rw [h, seg_px_black, seg_px_white]
  · rw [h, seg_px_white, seg_px_black]

/-! ## Edge detection -/

theorem edge_step_eq (st seg : ppm) (k : Nat) (hw : st.w = seg.w)
    (h0 : k < st.reds.length) (h1 : k + 1 < st.reds.length) (h2 : k + seg.w < st.reds.length)
    (e0 : st.reds.getD k 0 = seg.reds.getD k 0)
    (e1 : st.reds.getD (k + 1) 0 = seg.reds.getD (k + 1) 0)
    (e2 : st.reds.getD (k + seg.w) 0 = seg.reds.getD (k + seg.w) 0) :
    edge_step st k = setPixel st k (edge_px seg k).1 (edge_px seg k).2.1 (edge_px seg k).2.2 := by
  simp only [edge_step, hw]
  rw [getElem?_of_lt _ _ h0, getElem?_of_lt _ _ h1, getElem?_of_lt _ _ h2]
  simp only [Option.some_bind, e0, e1, e2, edge_px]
  split_ifs <;> rfl

/-- The gradient loop returns; it recolours the interior indices from the raster it was
given and leaves every other pixel as it was. -/
theorem edge_loop_spec (seg : ppm) (hs : shape seg (seg.w * seg.h)) :
    ∃ out, edge_loop seg = some out ∧ out.w = seg.w ∧ out.h = seg.h ∧
      shape out (seg.w * seg.h) ∧
      ∀ j, out.px j = if seg.w ≤ j ∧ j < seg.w * seg.h - seg.w then edge_px seg j
        else seg.px j := by
  have hz : seg.w = 0 → seg.w * seg.h = 0 := fun h => by simp [h]
  generalize hS : seg.w * seg.h = s at hs hz
  have h := foldlM_range'_total edge_step
    (fun k st => st.w = seg.w ∧ st.h = seg.h ∧ shape st s ∧
      ∀ j, st.px j = if seg.w ≤ j ∧ j < k then edge_px seg j else seg.px j)
    (s - seg.w - seg.w) seg.w seg
    ⟨rfl, rfl, hs, fun j => by
      have : ¬ (seg.w ≤ j ∧ j < seg.w) := by omega
      rw [if_neg this]⟩ (by
      intro k st hk1 hk2 ⟨hw, hh, hsh, hpx⟩
      obtain ⟨s1, s2, s3⟩ := hsh
      have keep : ∀ j, k ≤ j → st.reds.getD j 0 = seg.reds.getD j 0 := by
        intro j hj
        have := hpx j
        have hn : ¬ (seg.w ≤ j ∧ j < k) := by omega
        rw [if_neg hn] at this
        simp only [ppm.px, Prod.mk.injEq] at this
        exact this.1
      have hstep := edge_step_eq st seg k hw (by omega) (by omega) (by omega)
        (keep k (Nat.le_refl k)) (keep _ (by omega)) (keep _ (by omega))
      obtain ⟨out, ho, ow, oh, osh, opx⟩ := setPixel_spec st s k (edge_px seg k).1
        (edge_px seg k).2.1 (edge_px seg k).2.2 ⟨s1, s2, s3⟩ (by omega)
      refine ⟨out, by rw [hstep, ho], by omega, by omega, osh, ?_⟩
      intro j
      rw [opx j]
      by_cases hj : j = k
      · subst hj
        have : seg.w ≤ j ∧ j < j + 1 := by omega
        rw [if_pos rfl, if_pos this]
      · rw [if_neg hj, hpx j]
        have : (seg.w ≤ j ∧ j < k + 1) ↔ (seg.w ≤ j ∧ j < k) := by omega
        simp only [this])
  obtain ⟨out, ho, hw, hh, hsh, hpx⟩ := h
  refine ⟨out, ?_, hw, hh, hsh, ?_⟩
  · simpa [edge_loop, hS] using ho
  · intro j
    rw [hpx j]
    have : (seg.w ≤ j ∧ j < seg.w + (s - seg.w - seg.w)) ↔ (seg.w ≤ j ∧ j < s - seg.w) := by
      omega
    simp only [this]

/-- `edge_detect` returns: it is `cutoff` followed by the gradient loop on its output. -/
theorem edge_detect_spec (img : ppm) (hs : shape img (img.w * img.h)) :
    ∃ seg out, cutoff img = some seg ∧ edge_detect img = some out ∧
      seg.w = img.w ∧ seg.h = img.h ∧ out.w = img.w ∧ out.h = img.h ∧
      shape seg (img.w * img.h) ∧ shape out (img.w * img.h) ∧
      (∀ j, j < img.w * img.h → seg.px j = seg_px (img.px j)) ∧
      ∀ j, out.px j = if img.w ≤ j ∧ j < img.w * img.h - img.w then edge_px seg j
        else seg.px j := by
  obtain ⟨seg, hc, sw, sh, ssh, spx⟩ := cutoff_spec img hs
  have hs2 : shape seg (seg.w * seg.h) := by rw [sw, sh]; exact ssh
  obtain ⟨out, ho, ow, oh, osh, opx⟩ := edge_loop_spec seg hs2
  rw [sw, sh] at osh opx
  refine ⟨seg, out, hc, by simp [edge_detect, hc, ho], sw, sh, by omega, by omega,
    ssh, osh, spx, opx⟩

/-! ## Claims on segmentation and edge detection -/

/-- C1 (defect of the code): `lum` never looks at red, because the cast `(byte)` binds to
the constant `0.2126` and makes it `0`. The pixel (255,150,0) has stated luminance 161,
above the cutoff level 150, so the claim has it black; `lum` gives 107 and `cutoff`
stores white. -/
theorem lum_ignores_red :
    (∀ r r1 g b, lum r g b = lum r1 g b) ∧
    lum 255 150 0 = 107 ∧ lum_spec 255 150 0 = 161 ∧
    cutoff ⟨1, 1, [255], [150], [0]⟩ = some ⟨1, 1, [255], [255], [255]⟩ := by
  refine ⟨fun r r1 g b => by simp [lum], by decide, by decide, by decide⟩

/-- C6 as stated fails: on the 1x1 white raster `cutoff` gives black, and `cutoff` of that
gives white again. -/
theorem cutoff_not_idempotent :
    (⟨1, 1, [255], [255], [255]⟩ : ppm).wf ∧
    (cutoff ⟨1, 1, [255], [255], [255]⟩).bind cutoff ≠ cutoff ⟨1, 1, [255], [255], [255]⟩ := by
  decide

/-- C6, amended: segmentation has period two. For every raster `cutoff` returns, and
applying `cutoff` three times yields the same raster as applying it once. -/
theorem cutoff_thrice (img : ppm) (hwf : img.wf) :
    ∃ out, cutoff img = some out ∧ ((cutoff img).bind cutoff).bind cutoff = some out := by
  obtain ⟨a, ha, aw, ah, ash, apx⟩ := cutoff_spec img (wf_shape hwf)
  have hs2 : shape a (a.w * a.h) := by rw [aw, ah]; exact ash
  obtain ⟨b, hb, bw, bh, bsh, bpx⟩ := cutoff_spec a hs2
  have hs3 : shape b (b.w * b.h) := by rw [bw, bh]; exact bsh
  obtain ⟨c, hc, cw, ch, csh, cpx⟩ := cutoff_spec b hs3
  rw [bw, bh] at csh cpx
  rw [aw, ah] at bsh bpx csh cpx
  refine ⟨a, ha, ?_⟩
  simp only [ha, hb, hc, Option.some_bind]
  congr 1
  apply ppm_ext c a (img.w * img.h) (by omega) (by omega) csh ash
  intro j hj
  rw [cpx j hj, bpx j hj, apx j hj, seg_px_thrice]

theorem cutoff_thrice_witness :
    ∃ out, cutoff ⟨1, 1, [255], [150], [0]⟩ = some out ∧
      ((cutoff ⟨1, 1, [255], [150], [0]⟩).bind cutoff).bind cutoff = some out :=
  cutoff_thrice ⟨1, 1, [255], [150], [0]⟩ (by decide)

/-- C4: after `edge_detect` every interior index `i` in `[w, w*h-w)` carries the colour
computed from the segmented raster `seg` (the output of `cutoff`): with
`g1 = red[i]-red[i+1]`, `g2 = red[i]-red[i+w]` and `g = g1` if `|g1| > |g2|` else `g2`,
the pixel is blue for `g > 0`, green for `g < 0`, black for `g = 0`. The reads of the
in-place loop therefore never see a recoloured neighbour. -/
theorem edge_detect_interior (img : ppm) (hwf : img.wf) :
    ∃ seg out, cutoff img = some seg ∧ edge_detect img = some out ∧
      ∀ i, img.w ≤ i → i < img.w * img.h - img.w →
        ∃ g1 g2 g : Int,
          g1 = (seg.reds.getD i 0 : Int) - (seg.reds.getD (i + 1) 0 : Int) ∧
          g2 = (seg.reds.getD i 0 : Int) - (seg.reds.getD (i + img.w) 0 : Int) ∧
          g = (if g1.natAbs > g2.natAbs then g1 else g2) ∧
          out.px i = if g > 0 then (0, 0, 255) else if g < 0 then (0, 255, 0) else (0, 0, 0) := by
  obtain ⟨seg, out, hc, he, sw, _, _, _, _, _, _, opx⟩ := edge_detect_spec img (wf_shape hwf)
  refine ⟨seg, out, hc, he, fun i h1 h2 => ⟨_, _, _, rfl, rfl, rfl, ?_⟩⟩
  rw [opx i, if_pos ⟨h1, h2⟩]
  simp only [edge_px, sw]

theorem edge_detect_interior_witness :
    ∃ seg out, cutoff ⟨2, 3, [0, 0, 0, 255, 0, 0], [0, 0, 0, 255, 0, 0], [0, 0, 0, 255, 0, 0]⟩
        = some seg ∧
      edge_detect ⟨2, 3, [0, 0, 0, 255, 0, 0], [0, 0, 0, 255, 0, 0], [0, 0, 0, 255, 0, 0]⟩
        = some out ∧
      ∀ i, 2 ≤ i → i < 2 * 3 - 2 →
        ∃ g1 g2 g : Int,
          g1 = (seg.reds.getD i 0 : Int) - (seg.reds.getD (i + 1) 0 : Int) ∧
          g2 = (seg.reds.getD i 0 : Int) - (seg.reds.getD (i + 2) 0 : Int) ∧
          g = (if g1.natAbs > g2.natAbs then g1 else g2) ∧
          out.px i = if g > 0 then (0, 0, 255) else if g < 0 then (0, 255, 0) else (0, 0, 0) :=
  edge_detect_interior
    ⟨2, 3, [0, 0, 0, 255, 0, 0], [0, 0, 0, 255, 0, 0], [0, 0, 0, 255, 0, 0]⟩ (by decide)

/-- C8: `edge_detect` changes no pixel of the first row and of the last row beyond
segmentation: at every index `i < w` and every index `i` in `[w*h-w, w*h)` the pixel after
`edge_detect` is the pixel after `cutoff` alone. -/
theorem edge_detect_frame (img : ppm) (hwf : img.wf) :
    ∃ seg out, cutoff img = some seg ∧ edge_detect img = some out ∧
      ∀ i, i < img.w * img.h → (i < img.w ∨ img.w * img.h - img.w ≤ i) →
        out.px i = seg.px i := by
  obtain ⟨seg, out, hc, he, _, _, _, _, _, _, _, opx⟩ := edge_detect_spec img (wf_shape hwf)
  refine ⟨seg, out, hc, he, fun i _ h2 => ?_⟩
  have : ¬ (img.w ≤ i ∧ i < img.w * img.h - img.w) := by omega
  rw [opx i, if_neg this]

theorem edge_detect_frame_witness :
    ∃ seg out, cutoff ⟨2, 3, [0, 0, 0, 255, 0, 0], [0, 0, 0, 255, 0, 0], [0, 0, 0, 255, 0, 0]⟩
        = some seg ∧
      edge_detect ⟨2, 3, [0, 0, 0, 255, 0, 0], [0, 0, 0, 255, 0, 0], [0, 0, 0, 255, 0, 0]⟩
        = some out ∧
      ∀ i, i < 2 * 3 → (i < 2 ∨ 2 * 3 - 2 ≤ i) → out.px i = seg.px i :=
  edge_detect_frame
    ⟨2, 3, [0, 0, 0, 255, 0, 0], [0, 0, 0, 255, 0, 0], [0, 0, 0, 255, 0, 0]⟩ (by decide)

/-! ## Hough accumulation -/

/-- A loop over a list that returns keeps every invariant of the processed prefix that
its body keeps. -/
theorem foldlM_list_inv {σ α : Type} (f : σ → α → Option σ) :
    ∀ (l : List α) (Inv : List α → σ → Prop) (st st2 : σ), Inv [] st →
      (∀ pre k st st1, k ∈ l → Inv pre st → f st k = some st1 → Inv (pre ++ [k]) st1) →
      l.foldlM f st = some st2 → Inv l st2 := by
  intro l
  induction l with
  | nil =>
    intro Inv st st2 h0 _ h
    simp at h
    subst h
    exact h0
  | cons a l ih =>
    intro Inv st st2 h0 hstep h
    simp only [List.foldlM_cons] at h
    cases h1 : f st a with
    | none => simp [h1] at h
    | some st1 =>
      simp only [h1, Option.bind_eq_bind, Option.some_bind] at h
      have hI := hstep [] a st st1 (List.mem_cons_self a l) h0 h1
      exact ih (fun pre s => Inv (a :: pre) s) st1 st2 hI
        (fun pre k s s1 hk hi hf => hstep (a :: pre) k s s1 (List.mem_cons_of_mem a hk) hi hf) h

theorem counts_congr {st : ppm} {w h : Nat} {c c1 : Nat → Nat} (hc : counts st w h c)
    (e : ∀ p, p < w * h → c p = c1 p) : counts st w h c1 := by
  obtain ⟨h1, h2, h3, h4⟩ := hc
  refine ⟨h1, h2, h3, fun p hp => ?_⟩
  rw [h4 p hp, e p hp]

/-- A successful `if (l[k] < 255) l[k]++` was inside the buffer and changed `l[k]` alone. -/
theorem bump_spec (l l1 : List Nat) (t : Int) (h : bump l t = some l1) :
    0 ≤ t ∧ t.toNat < l.length ∧ l1.length = l.length ∧
      ∀ p, l1.getD p 0 = if p = t.toNat then
        (if l.getD p 0 < 255 then l.getD p 0 + 1 else l.getD p 0) else l.getD p 0 := by
  unfold bump rd at h
  by_cases h0 : 0 ≤ t
  · rw [if_pos h0] at h
    by_cases hlt : t.toNat < l.length
    · rw [getElem?_of_lt _ _ hlt] at h
      simp only [Option.some_bind] at h
      refine ⟨h0, hlt, ?_, ?_⟩
      · split at h <;> · cases h; simp
      · intro p
        by_cases hv : l.getD t.toNat 0 < 255
        · rw [if_pos hv] at h
          cases h
          rw [getD_set_nat _ _ _ _ hlt]
          by_cases hp : p = t.toNat
          · subst hp; rw [if_pos rfl, if_pos rfl, if_pos hv]
          · rw [if_neg hp, if_neg hp]
        · rw [if_neg hv] at h
          cases h
          by_cases hp : p = t.toNat
          · subst hp; rw [if_pos rfl, if_neg hv]
          · rw [if_neg hp]
    · have : l[t.toNat]? = none := by simp; omega
      rw [this] at h
      simp at h
  · rw [if_neg h0] at h
    simp at h

theorem min_bump (c : Nat) :
    (if min 255 c < 255 then min 255 c + 1 else min 255 c) = min 255 (c + 1) := by
  simp only [Nat.min_def]
  split_ifs <;> omega

/-- One degree step that returns adds one vote at its target when both checks pass, and
nothing otherwise. -/
theorem draw_step_spec (circ : Nat → Int × Int) (i d w h : Nat) (st st1 : ppm)
    (c : Nat → Nat) (hc : counts st w h c) (hs : draw_step circ (i : Int) st d = some st1) :
    counts st1 w h
      (fun p => c p + if pass w h circ i d && decide (target w circ i d = (p : Int))
        then 1 else 0) := by
  obtain ⟨cw, ch, ⟨s1, s2, s3⟩, cpx⟩ := hc
  simp only [draw_step, cw, ch] at hs
  by_cases hp : pass w h circ i d = true
  · have hp2 := hp
    simp only [pass, decide_eq_true_eq] at hp2
    rw [if_pos hp2.1, if_pos hp2.2] at hs
    cases hr : bump st.reds ((i : Int) + (circ d).1 + (circ d).2 * (w : Int)) with
    | none => simp [hr] at hs
    | some rs =>
      cases hg : bump st.greens ((i : Int) + (circ d).1 + (circ d).2 * (w : Int)) with
      | none => simp [hr, hg] at hs
      | some gs =>
        cases hb : bump st.blues ((i : Int) + (circ d).1 + (circ d).2 * (w : Int)) with
        | none => simp [hr, hg, hb] at hs
        | some bs =>
          simp only [hr, hg, hb, Option.some_bind, Option.some.injEq] at hs
          subst hs
          obtain ⟨t0, _, rl, rp⟩ := bump_spec _ _ _ hr
          obtain ⟨_, _, gl, gp⟩ := bump_spec _ _ _ hg
          obtain ⟨_, _, bl, bp⟩ := bump_spec _ _ _ hb
          refine ⟨rfl, rfl, ⟨by simp only; omega, by simp only; omega, by simp only; omega⟩, ?_⟩
          intro p hpl
          have hpx := cpx p hpl
          simp only [ppm.px, Prod.mk.injEq] at hpx ⊢
          rw [rp p, gp p, bp p, hpx.1, hpx.2.1, hpx.2.2]
          simp only [hp, Bool.true_and, target]
          by_cases e : (i : Int) + (circ d).1 + (circ d).2 * (w : Int) = (p : Int)
          · have e2 : p = ((i : Int) + (circ d).1 + (circ d).2 * (w : Int)).toNat := by
              rw [e]; simp
            rw [if_pos e2]
            simp only [e, decide_True, if_true, min_bump, and_self]
          · have e2 : ¬ p = ((i : Int) + (circ d).1 + (circ d).2 * (w : Int)).toNat := by
              intro hh; apply e; rw [hh]; exact (Int.toNat_of_nonneg t0).symm
            rw [if_neg e2]
            simp [e]
  · have hp2 := hp
    simp only [pass, decide_eq_true_eq] at hp2
    have hs2 : st1 = st := by
      by_cases a : 0 ≤ (i : Int) + (circ d).1 ∧ (i : Int) + (circ d).1 < (w : Int) * (h : Int)
      · rw [if_pos a] at hs
        have b : ¬ (0 ≤ (i : Int) + (circ d).2 * (w : Int) ∧
            (i : Int) + (circ d).2 * (w : Int) < (w : Int) * (h : Int)) := fun b => hp2 ⟨a, b⟩
        rw [if_neg b] at hs
        cases hs; rfl
      · rw [if_neg a] at hs
        cases hs; rfl
    subst hs2
    refine ⟨cw, ch, ⟨s1, s2, s3⟩, fun p hpl => ?_⟩
    rw [cpx p hpl]
    simp [hp]

/-- A `draw_circle` that returns adds, at every pixel, the hits of its centre. -/
theorem draw_circle_spec (circ : Nat → Int × Int) (i w h : Nat) (st st1 : ppm)
    (c : Nat → Nat) (hc : counts st w h c) (hs : draw_circle st (i : Int) circ = some st1) :
    counts st1 w h (fun p => c p + hits w h circ i p) := by
  have := foldlM_list_inv (draw_step circ (i : Int)) (List.range 360)
    (fun pre s => counts s w h (fun p => c p + pre.countP fun d =>
      pass w h circ i d && decide (target w circ i d = (p : Int))))
    st st1 (by simpa using hc) (by
      intro pre k s s1 _ hi hf
      have := draw_step_spec circ i k w h s s1 _ hi hf
      apply counts_congr this
      intro p _
      simp only [List.countP_append, List.countP_cons, List.countP_nil]
      omega) hs
  exact this

/-- The voting loop, when it returns, holds at every pixel `p` the number `votes img circ p`
saturated at 255, in all three channels. -/
theorem find_points_votes_spec (img : ppm) (circ : Nat → Int × Int) (hough : ppm)
    (hs : shape img (img.w * img.h)) (h : find_points_votes img circ = some hough) :
    counts hough img.w img.h (votes img circ) := by
  have h0 : counts (hough_zero img) img.w img.h (votes_of img circ []) := by
    refine ⟨rfl, rfl, ⟨by simp [hough_zero], by simp [hough_zero], by simp [hough_zero]⟩, ?_⟩
    intro p hp
    simp [ppm.px, hough_zero, votes_of, List.getD_eq_getElem?_getD, List.getElem?_replicate, hp]
  have := foldlM_list_inv (vote_step img circ)
    (List.range' img.w (img.w * img.h - img.w - img.w))
    (fun pre s => counts s img.w img.h (votes_of img circ pre))
    (hough_zero img) hough h0 (by
      intro pre k s s1 hk hi hf
      have hk2 : k < img.w * img.h := by
        have := List.mem_range'_1.mp hk
        omega
      obtain ⟨_, s2, s3⟩ := hs
      simp only [vote_step] at hf
      rw [getElem?_of_lt _ _ (by omega), getElem?_of_lt _ _ (by omega)] at hf
      simp only [Option.some_bind] at hf
      by_cases he : img.blues.getD k 0 = 255 ∨ img.greens.getD k 0 = 255
      · rw [if_pos he] at hf
        have := draw_circle_spec circ k img.w img.h s s1 _ hi hf
        have hke : is_edge img k = true := by
          simp only [is_edge, decide_eq_true_eq]; exact he
        apply counts_congr this
        intro p _
        simp [votes_of, List.filter_append, List.filter_cons, hke]
      · rw [if_neg he] at hf
        cases hf
        have hke : is_edge img k = false := by
          simp only [is_edge, decide_eq_false_iff_not]; exact he
        apply counts_congr hi
        intro p _
        simp [votes_of, List.filter_append, List.filter_cons, hke]) h
  exact this

/-! ## Peak extraction -/

/-- A loop whose body returns `g st k` at every element of the list is the pure fold. -/
theorem foldlM_eq_foldl {σ α : Type} (f : σ → α → Option σ) (g : σ → α → σ) :
    ∀ (l : List α) (st : σ), (∀ k, k ∈ l → ∀ s, f s k = some (g s k)) →
      l.foldlM f st = some (l.foldl g st) := by
  intro l
  induction l with
  | nil => intro st _; rfl
  | cons a l ih =>
    intro st h
    simp only [List.foldlM_cons, List.foldl_cons, h a (List.mem_cons_self a l) st,
      Option.bind_eq_bind, Option.some_bind]
    exact ih _ (fun k hk s => h k (List.mem_cons_of_mem a hk) s)

theorem rd_of_lt (l : List Nat) (z : Int) (h0 : 0 ≤ z) (h1 : z.toNat < l.length) :
    rd l z = some (l.getD z.toNat 0) := by
  rw [rd, if_pos h0, getElem?_of_lt _ _ h1]

/-- At an interior index the four neighbours are inside the buffer and `is_local_max`
computes the 4-neighbour test. -/
theorem is_local_max_spec (hough : ppm) (i : Nat) (h1 : hough.w ≤ i) (h0 : 1 ≤ hough.w)
    (h2 : i + hough.w < hough.reds.length) :
    is_local_max hough (i : Int) (hough.w : Int) = some (local_max hough i) := by
  have e1 : ((i : Int) - 1).toNat = i - 1 := by omega
  have e2 : ((i : Int) + 1).toNat = i + 1 := by omega
  have e3 : ((i : Int) - (hough.w : Int)).toNat = i - hough.w := by omega
  have e4 : ((i : Int) + (hough.w : Int)).toNat = i + hough.w := by omega
  have e0 : ((i : Int)).toNat = i := by omega
  simp only [is_local_max]
  rw [rd_of_lt _ _ (by omega) (by omega), rd_of_lt _ _ (by omega) (by omega),
    rd_of_lt _ _ (by omega) (by omega), rd_of_lt _ _ (by omega) (by omega),
    rd_of_lt _ _ (by omega) (by omega)]
  simp only [Option.some_bind, e0, e1, e2, e3, e4, local_max, red]
  split_ifs <;>
    simp only [Option.some.injEq, Bool.false_eq, Bool.true_eq, decide_eq_true_eq,
      decide_eq_false_iff_not] <;> omega

/-- Interior indices have all four neighbours inside a buffer of `w*h` bytes. -/
theorem interior_bounds (img : ppm) (k : Nat) (hk : k ∈ interior img) :
    img.w ≤ k ∧ 1 ≤ img.w ∧ k + img.w < img.w * img.h ∧ k < img.w * img.h - img.w := by
  have hz : img.w = 0 → img.w * img.h = 0 := fun h => by simp [h]
  have := List.mem_range'_1.mp hk
  omega

theorem mem_interior (img : ppm) (k : Nat) :
    k ∈ interior img ↔ img.w ≤ k ∧ k < img.w * img.h - img.w := by
  simp only [interior, List.mem_range'_1]
  omega

/-- The maximum scan returns the fold of `max` over the interior red votes. -/
theorem find_points_max_eq (hough : ppm) (hs : shape hough (hough.w * hough.h)) :
    find_points_max hough =
      some ((interior hough).foldl (fun m i => if red hough i > m then red hough i else m) 0) := by
  apply foldlM_eq_foldl
  intro k hk s
  have := interior_bounds hough k hk
  simp only [max_step]
  rw [getElem?_of_lt _ _ (by have := hs.1; omega)]
  rfl

theorem foldl_max_spec (f : Nat → Nat) : ∀ (l : List Nat) (m0 : Nat),
    m0 ≤ l.foldl (fun m i => if f i > m then f i else m) m0 ∧
    (∀ i, i ∈ l → f i ≤ l.foldl (fun m i => if f i > m then f i else m) m0) ∧
    (l.foldl (fun m i => if f i > m then f i else m) m0 = m0 ∨
      ∃ i, i ∈ l ∧ f i = l.foldl (fun m i => if f i > m then f i else m) m0) := by
  intro l
  induction l with
  | nil => intro m0; simp
  | cons a l ih =>
    intro m0
    simp only [List.foldl_cons]
    by_cases c : f a > m0
    · rw [if_pos c]
      obtain ⟨h1, h2, h3⟩ := ih (f a)
      refine ⟨by omega, ?_, ?_⟩
      · intro i hi
        rcases List.mem_cons.mp hi with e | e
        · subst e; exact h1
        · exact h2 i e
      · rcases h3 with e | ⟨i, hi, e⟩
        · exact Or.inr ⟨a, List.mem_cons_self a l, e.symm⟩
        · exact Or.inr ⟨i, List.mem_cons_of_mem a hi, e⟩
    · rw [if_neg c]
      obtain ⟨h1, h2, h3⟩ := ih m0
      refine ⟨h1, ?_, ?_⟩
      · intro i hi
        rcases List.mem_cons.mp hi with e | e
        · subst e; omega
        · exact h2 i e
      · rcases h3 with e | ⟨i, hi, e⟩
        · exact Or.inl e
        · exact Or.inr ⟨i, List.mem_cons_of_mem a hi, e⟩

theorem foldl_filter_cons {α β : Type} (P : α → Bool) (g : α → β) :
    ∀ (l : List α) (cs : List β),
      l.foldl (fun c i => if P i then g i :: c else c) cs
        = ((l.filter P).reverse.map g) ++ cs := by
  intro l
  induction l with
  | nil => intro cs; simp
  | cons a l ih =>
    intro cs
    simp only [List.foldl_cons]
    rw [ih]
    by_cases c : P a = true
    · simp [List.filter_cons, c]
    · simp [List.filter_cons, c]

/-- The peak loop returns: it puts the centre of every interior index that passes both
tests in front of the list, the later index nearer the head. -/
theorem find_points_peaks_eq (hough : ppm) (max : Nat) (cs : PLL)
    (hs : shape hough (hough.w * hough.h)) :
    find_points_peaks hough max cs =
      some ((((interior hough).filter fun i => gt8 (red hough i) max && local_max hough i).reverse.map
        (center hough.w)) ++ cs) := by
  have h := foldlM_eq_foldl (peak_step hough max)
    (fun c i => if gt8 (red hough i) max && local_max hough i
      then center hough.w i :: c else c)
    (interior hough) cs (by
      intro k hk s
      have := interior_bounds hough k hk
      simp only [peak_step]
      rw [getElem?_of_lt _ _ (by have := hs.1; omega),
        is_local_max_spec hough k this.1 this.2.1 (by have := hs.1; omega)]
      simp only [Option.some_bind, red, pll_add, center]
      cases gt8 (hough.reds.getD k 0) max <;> cases local_max hough k <;> rfl)
  rw [find_points_peaks]
  change List.foldlM (peak_step hough max) cs (interior hough) = _
  rw [h, foldl_filter_cons]

set_option maxRecDepth 100000 in
/-- The double product `max*.8`, in units of `2^-53`, is at least the integer `4*max/5`
and below the next integer. -/
theorem rne53_D8 : ∀ m, m < 256 →
    (4 * m / 5) * 2 ^ 53 ≤ rne53 (m * D8) ∧ rne53 (m * D8) < (4 * m / 5 + 1) * 2 ^ 53 := by
  decide

/-- The double comparison `v > max*.8` decides `4*max < 5*v` on bytes. -/
theorem gt8_spec (m v : Nat) (hm : m < 256) : gt8 v m = decide (4 * m < 5 * v) := by
  obtain ⟨h1, h2⟩ := rne53_D8 m hm
  simp only [gt8]
  have e : (2 : Nat) ^ 53 = 9007199254740992 := by norm_num
  rw [e] at h1 h2 ⊢
  by_cases c : 4 * m < 5 * v
  · rw [decide_eq_true c, decide_eq_true_eq]
    omega
  · rw [decide_eq_false c, decide_eq_false_iff_not]
    omega

/-! ## The whole of `find_points` -/

theorem find_points_parts (img : ppm) (circ : Nat → Int × Int) (cs cs1 : PLL) (hough : ppm)
    (h : find_points img circ cs = some (hough, cs1)) :
    find_points_votes img circ = some hough ∧
      ∃ mx, find_points_max hough = some mx ∧ find_points_peaks hough mx cs = some cs1 := by
  unfold find_points at h
  cases hv : find_points_votes img circ with
  | none => simp [hv] at h
  | some hg =>
    cases hm : find_points_max hg with
    | none => simp [hv, hm] at h
    | some mx =>
      cases hp : find_points_peaks hg mx cs with
      | none => simp [hv, hm, hp] at h
      | some c =>
        simp only [hv, hm, hp, Option.some_bind, Option.some.injEq, Prod.mk.injEq] at h
        obtain ⟨e1, e2⟩ := h
        subst e1 e2
        exact ⟨rfl, mx, hm, hp⟩

theorem counts_red_le {hough : ppm} {w h : Nat} {c : Nat → Nat} (hc : counts hough w h c)
    (p : Nat) : red hough p ≤ 255 := by
  obtain ⟨_, _, ⟨s1, _, _⟩, cpx⟩ := hc
  by_cases hp : p < w * h
  · have := cpx p hp
    simp only [ppm.px, Prod.mk.injEq] at this
    simp only [red, this.1]
    omega
  · have : hough.reds.getD p 0 = 0 := by
      simp only [List.getD_eq_getElem?_getD]
      rw [List.getElem?_eq_none (by omega)]
      rfl
    simp only [red, this]
    omega

/-- What a run of `find_points` that returns has computed: the saturated vote counts, the
maximum red vote of the interior, and the centres of the peaks, last found first. -/
theorem find_points_spec (img : ppm) (circ : Nat → Int × Int) (cs cs1 : PLL) (hough : ppm)
    (hs : shape img (img.w * img.h)) (h : find_points img circ cs = some (hough, cs1)) :
    counts hough img.w img.h (votes img circ) ∧
    ∃ mx, (∀ i, i ∈ interior img → red hough i ≤ mx) ∧
      (mx = 0 ∨ ∃ i, i ∈ interior img ∧ red hough i = mx) ∧
      cs1 = (((interior img).filter fun i =>
        decide (4 * mx < 5 * red hough i) && local_max hough i).reverse.map (center img.w))
          ++ cs := by
  obtain ⟨hv, mx, hm, hp⟩ := find_points_parts img circ cs cs1 hough h
  have hc := find_points_votes_spec img circ hough hs hv
  have hw : hough.w = img.w := hc.1
  have hh : hough.h = img.h := hc.2.1
  have hsh : shape hough (hough.w * hough.h) := by rw [hw, hh]; exact hc.2.2.1
  have hint : interior hough = interior img := by simp only [interior, hw, hh]
  rw [find_points_max_eq hough hsh, hint] at hm
  rw [find_points_peaks_eq hough mx cs hsh, hint, hw] at hp
  obtain ⟨_, m2, m3⟩ := foldl_max_spec (red hough) (interior img) 0
  simp only [Option.some.injEq] at hm hp
  rw [hm] at m2 m3
  have hmx : mx < 256 := by
    rcases m3 with e | ⟨i, _, e⟩
    · omega
    · have := counts_red_le hc i
      omega
  refine ⟨hc, mx, m2, ?_, ?_⟩
  · rcases m3 with e | e
    · exact Or.inl e
    · exact Or.inr e
  · rw [← hp]
    congr 3
    apply List.filter_congr
    intro i _
    rw [gt8_spec mx (red hough i) hmx]

/-! ## Two plots, evaluated -/

theorem edge_detect_plot7 : edge_detect plot7 = some edge7 := by decide

set_option maxRecDepth 100000 in
theorem find_points_edge7 : find_points edge7 circ15 [] = some (hough7, [(2, 1), (0, 1)]) := by
  decide

theorem edge_detect_plot8 : edge_detect plot8 = some edge8 := by decide

set_option maxRecDepth 100000 in
theorem draw_circle_edge8 : draw_circle (hough_zero edge8) 5 circ15 = none := by decide

set_option maxRecDepth 100000 in
theorem find_points_edge8 : find_points edge8 circ15 [] = none := by decide

/-! ## Claims on the Hough stage and on peak extraction -/

/-- C3 as stated fails: the plot `plot7` has the edge raster `edge7`, and at radius 1.5
`find_points` returns, from the empty list, the centres `(2,1)` then `(0,1)`: pixel index
5 comes before pixel index 3, so the list is not in scan order. -/
theorem centers_not_in_scan_order :
    edge_detect plot7 = some edge7 ∧
    find_points edge7 circ15 [] = some (hough7, [(2, 1), (0, 1)]) ∧
    ¬ (List.map (center_index 3) [(2, 1), (0, 1)]).Pairwise (· < ·) :=
  ⟨edge_detect_plot7, find_points_edge7, by decide⟩

/-- C7 as stated fails: on the edge raster `edge7` of the plot `plot7`, at radius 1.5, the
circle around the interior pixel 4 puts 83 votes on pixel 1 of the first row and 83 votes
on pixel 7 of the last row. -/
theorem votes_reach_border_rows :
    edge_detect plot7 = some edge7 ∧
    find_points edge7 circ15 [] = some (hough7, [(2, 1), (0, 1)]) ∧
    hough7.px 1 = (83, 83, 83) ∧ hough7.px 7 = (83, 83, 83) :=
  ⟨edge_detect_plot7, find_points_edge7, by decide, by decide⟩

/-- C9 (defect of the code): the two checks of `draw_circle` bound `i+x` and `i+y*w`, not
the index `i+x+y*w` that is used. The plot `plot8` has the edge raster `edge8` with the
blue pixel 5; at radius 1.5 and degree 42 the offsets are `(1, 1)`, both checks pass
(`6 < 9` and `8 < 9`) and the index is `9`, outside `[0, 9)`: `draw_circle` and
`find_points` leave the buffers. -/
theorem draw_circle_out_of_range :
    edge_detect plot8 = some edge8 ∧ is_edge edge8 5 = true ∧
    circ15 42 = (1, 1) ∧ pass 3 3 circ15 5 42 = true ∧ target 3 circ15 5 42 = 9 ∧
    draw_circle (hough_zero edge8) 5 circ15 = none ∧
    find_points edge8 circ15 [] = none := by
  exact ⟨edge_detect_plot8, by decide, by decide, by decide, by decide, draw_circle_edge8,
    find_points_edge8⟩

/-! ## Runs that stay inside the buffers -/

theorem bump_total (l : List Nat) (t : Int) (h0 : 0 ≤ t) (h1 : t.toNat < l.length) :
    ∃ l1, bump l t = some l1 ∧ l1.length = l.length := by
  unfold bump
  rw [rd_of_lt l t h0 h1]
  simp only [Option.some_bind]
  split
  · exact ⟨_, rfl, by simp⟩
  · exact ⟨_, rfl, rfl⟩

theorem draw_step_total (circ : Nat → Int × Int) (i d w h : Nat) (st : ppm)
    (hw : st.w = w) (hh : st.h = h) (hs : shape st (w * h))
    (ht : pass w h circ i d = true →
      0 ≤ target w circ i d ∧ target w circ i d < ((w * h : Nat) : Int)) :
    ∃ st1, draw_step circ (i : Int) st d = some st1 ∧ st1.w = w ∧ st1.h = h ∧
      shape st1 (w * h) := by
  obtain ⟨s1, s2, s3⟩ := hs
  simp only [draw_step, hw, hh]
  by_cases hp : pass w h circ i d = true
  · obtain ⟨t0, t1⟩ := ht hp
    simp only [target] at t0 t1
    simp only [pass, decide_eq_true_eq] at hp
    rw [if_pos hp.1, if_pos hp.2]
    have tl : ((i : Int) + (circ d).1 + (circ d).2 * (w : Int)).toNat < w * h := by omega
    obtain ⟨rs, hr, rl⟩ := bump_total st.reds _ t0 (by omega)
    obtain ⟨gs, hg, gl⟩ := bump_total st.greens _ t0 (by omega)
    obtain ⟨bs, hb, bl⟩ := bump_total st.blues _ t0 (by omega)
    refine ⟨_, by rw [hr, hg, hb]; rfl, rfl, rfl, ?_⟩
    exact ⟨by simp only; omega, by simp only; omega, by simp only; omega⟩
  · simp only [pass, decide_eq_true_eq] at hp
    by_cases a : 0 ≤ (i : Int) + (circ d).1 ∧ (i : Int) + (circ d).1 < (w : Int) * (h : Int)
    · have b : ¬ (0 ≤ (i : Int) + (circ d).2 * (w : Int) ∧
          (i : Int) + (circ d).2 * (w : Int) < (w : Int) * (h : Int)) := fun b => hp ⟨a, b⟩
      rw [if_pos a, if_neg b]
      exact ⟨st, rfl, hw, hh, s1, s2, s3⟩
    · rw [if_neg a]
      exact ⟨st, rfl, hw, hh, s1, s2, s3⟩

/-- When no vote leaves the buffers, `find_points` returns. -/
theorem find_points_returns (img : ppm) (circ : Nat → Int × Int) (cs : PLL)
    (hs : shape img (img.w * img.h)) (hr : in_range img circ) :
    ∃ hough cs1, find_points img circ cs = some (hough, cs1) := by
  have hv := foldlM_range'_total (vote_step img circ)
    (fun _ st => st.w = img.w ∧ st.h = img.h ∧ shape st (img.w * img.h))
    (img.w * img.h - img.w - img.w) img.w (hough_zero img)
    ⟨rfl, rfl, by simp [shape, hough_zero]⟩ (by
      intro k st hk1 hk2 ⟨hw, hh, hsh⟩
      have hki : k ∈ interior img := by
        simp only [interior, List.mem_range'_1]; omega
      have hkb := interior_bounds img k hki
      simp only [vote_step]
      rw [getElem?_of_lt _ _ (by have := hs.2.2; omega),
        getElem?_of_lt _ _ (by have := hs.2.1; omega)]
      simp only [Option.some_bind]
      by_cases he : img.blues.getD k 0 = 255 ∨ img.greens.getD k 0 = 255
      · rw [if_pos he]
        have hke : is_edge img k = true := by
          simp only [is_edge, decide_eq_true_eq]; exact he
        have hd := foldlM_range'_total (draw_step circ (k : Int))
          (fun _ s => s.w = img.w ∧ s.h = img.h ∧ shape s (img.w * img.h))
          360 0 st ⟨hw, hh, hsh⟩ (by
            intro d s _ hd2 ⟨sw, sh, ssh⟩
            obtain ⟨s1, h1, h2, h3, h4⟩ := draw_step_total circ k d img.w img.h s sw sh ssh
              (fun hp => hr k d hki hke (by omega) hp)
            exact ⟨s1, h1, h2, h3, h4⟩)
        obtain ⟨s1, h1, h2⟩ := hd
        refine ⟨s1, ?_, h2⟩
        simpa [draw_circle, List.range_eq_range'] using h1
      · rw [if_neg he]
        exact ⟨st, rfl, hw, hh, hsh⟩)
  obtain ⟨hough, hv1, hw, hh, hsh⟩ := hv
  have hsh2 : shape hough (hough.w * hough.h) := by rw [hw, hh]; exact hsh
  have e : find_points_votes img circ = some hough := hv1
  simp only [find_points, e, find_points_max_eq hough hsh2,
    find_points_peaks_eq hough _ cs hsh2, Option.some_bind]
  exact ⟨_, _, rfl⟩

/-- Every access of one step of the gradient loop at an interior index is inside. -/
theorem edge_step_total (st : ppm) (s i : Nat) (hs : shape st s)
    (h1 : i + 1 < s) (h2 : i + st.w < s) : ∃ st1, edge_step st i = some st1 := by
  obtain ⟨s1, s2, s3⟩ := hs
  simp only [edge_step]
  rw [getElem?_of_lt _ _ (by omega), getElem?_of_lt _ _ (by omega),
    getElem?_of_lt _ _ (by omega)]
  simp only [Option.some_bind]
  have sp : ∀ r g b, ∃ st1, setPixel st i r g b = some st1 := fun r g b => by
    obtain ⟨o, ho, _⟩ := setPixel_spec st s i r g b ⟨s1, s2, s3⟩ (by omega)
    exact ⟨o, ho⟩
  split_ifs <;> apply sp

theorem interior_empty (img : ppm) (h : img.h ≤ 2) :
    img.w * img.h - img.w - img.w = 0 := by
  have : img.w * img.h ≤ img.w * 2 := Nat.mul_le_mul_left _ h
  omega

/-- C10: the edge and peak stages stay inside the buffers. On every raster `edge_detect`
returns, and so do the maximum scan and the peak loop of `find_points`; for every index
`i` of the loop range `[w, w*h-w)` the accesses at `i`, `i+1`, `i+w` of the gradient step
and at `i`, `i-1`, `i+1`, `i-w`, `i+w` of `is_local_max` succeed; and when `h ≤ 2` the
loops touch no pixel: `edge_detect` is `cutoff`, the maximum is 0 and no centre is added. -/
theorem edge_and_peak_in_bounds (img : ppm) (hwf : img.wf) :
    (∃ out, edge_detect img = some out) ∧
    (∃ mx, find_points_max img = some mx) ∧
    (∀ mx cs, ∃ cs1, find_points_peaks img mx cs = some cs1) ∧
    (∀ st i, st.w = img.w → shape st (img.w * img.h) → img.w ≤ i →
      i < img.w * img.h - img.w → ∃ st1, edge_step st i = some st1) ∧
    (∀ i, img.w ≤ i → i < img.w * img.h - img.w →
      ∃ b, is_local_max img (i : Int) (img.w : Int) = some b) ∧
    (img.h ≤ 2 → edge_detect img = cutoff img ∧ find_points_max img = some 0 ∧
      ∀ mx cs, find_points_peaks img mx cs = some cs) := by
  have hs := wf_shape hwf
  obtain ⟨seg, out, hc, he, sw, sh, _, _, ssh, _, _, _⟩ := edge_detect_spec img hs
  refine ⟨⟨out, he⟩, ⟨_, find_points_max_eq img hs⟩, fun mx cs => ⟨_, find_points_peaks_eq img mx cs hs⟩,
    ?_, ?_, ?_⟩
  · intro st i hw hst h1 h2
    have hb := interior_bounds img i ((mem_interior img i).mpr ⟨h1, h2⟩)
    exact edge_step_total st _ i hst (by omega) (by rw [hw]; omega)
  · intro i h1 h2
    have hb := interior_bounds img i ((mem_interior img i).mpr ⟨h1, h2⟩)
    exact ⟨_, is_local_max_spec img i h1 hb.2.1 (by have := hs.1; omega)⟩
  · intro h2
    have e := interior_empty img h2
    refine ⟨?_, ?_, ?_⟩
    · have e2 : seg.w * seg.h - seg.w - seg.w = 0 := by rw [sw, sh]; exact e
      simp [edge_detect, hc, edge_loop, e2]
    · simp [find_points_max, e]
    · intro mx cs
      simp [find_points_peaks, e]

theorem edge_and_peak_in_bounds_witness :
    (∃ out, edge_detect edge7 = some out) ∧
    (∃ mx, find_points_max edge7 = some mx) ∧
    (∀ mx cs, ∃ cs1, find_points_peaks edge7 mx cs = some cs1) ∧
    (∀ st i, st.w = edge7.w → shape st (edge7.w * edge7.h) → edge7.w ≤ i →
      i < edge7.w * edge7.h - edge7.w → ∃ st1, edge_step st i = some st1) ∧
    (∀ i, edge7.w ≤ i → i < edge7.w * edge7.h - edge7.w →
      ∃ b, is_local_max edge7 (i : Int) (edge7.w : Int) = some b) ∧
    (edge7.h ≤ 2 → edge_detect edge7 = cutoff edge7 ∧ find_points_max edge7 = some 0 ∧
      ∀ mx cs, find_points_peaks edge7 mx cs = some cs) :=
  edge_and_peak_in_bounds edge7 (by decide)

/-! ## Further claims on segmentation and edge detection -/

theorem px_reds (img : ppm) (i : Nat) : img.reds.getD i 0 = (img.px i).1 := rfl

/-- C12: on a raster whose every pixel is white (255,255,255), of any dimensions,
`cutoff` returns a raster of the same dimensions whose every pixel is black (0,0,0). -/
theorem cutoff_white (img : ppm) (hwf : img.wf)
    (hw : ∀ p, p < img.w * img.h → img.px p = (255, 255, 255)) :
    ∃ out, cutoff img = some out ∧ out.w = img.w ∧ out.h = img.h ∧
      ∀ p, p < img.w * img.h → out.px p = (0, 0, 0) := by
  obtain ⟨out, ho, ow, oh, _, opx⟩ := cutoff_spec img (wf_shape hwf)
  refine ⟨out, ho, ow, oh, fun p hp => ?_⟩
  rw [opx p hp, hw p hp, seg_px_white]

theorem cutoff_white_witness :
    ∃ out, cutoff white5 = some out ∧ out.w = white5.w ∧ out.h = white5.h ∧
      ∀ p, p < white5.w * white5.h → out.px p = (0, 0, 0) :=
  cutoff_white white5 (by decide) (by decide)

/-- C19: the output of `cutoff` is binary, every pixel being (0,0,0) or (255,255,255);
`cutoff` applied to it swaps the two colours at every pixel, so that `cutoff(cutoff(img))`
is the black/white complement of `cutoff(img)`; and `cutoff` applied three times is
`cutoff` applied once. -/
theorem cutoff_binary_swap (img : ppm) (hwf : img.wf) :
    ∃ a b c, cutoff img = some a ∧ cutoff a = some b ∧ cutoff b = some c ∧
      (∀ p, p < img.w * img.h → a.px p = (0, 0, 0) ∨ a.px p = (255, 255, 255)) ∧
      (∀ p, p < img.w * img.h →
        (a.px p = (0, 0, 0) → b.px p = (255, 255, 255)) ∧
        (a.px p = (255, 255, 255) → b.px p = (0, 0, 0))) ∧
      c = a := by
  obtain ⟨a, ha, aw, ah, ash, apx⟩ := cutoff_spec img (wf_shape hwf)
  have hs2 : shape a (a.w * a.h) := by rw [aw, ah]; exact ash
  obtain ⟨b, hb, bw, bh, bsh, bpx⟩ := cutoff_spec a hs2
  have hs3 : shape b (b.w * b.h) := by rw [bw, bh]; exact bsh
  obtain ⟨c, hc, cw, ch, csh, cpx⟩ := cutoff_spec b hs3
  rw [bw, bh] at csh cpx
  rw [aw, ah] at bsh bpx csh cpx
  refine ⟨a, b, c, ha, hb, hc, ?_, ?_, ?_⟩
  · intro p hp
    rw [apx p hp]
    exact seg_px_cases _
  · intro p hp
    rw [bpx p hp]
    constructor
    · intro e; rw [e, seg_px_black]
    · intro e; rw [e, seg_px_white]
  · apply ppm_ext c a (img.w * img.h) (by omega) (by omega) csh ash
    intro j hj
    rw [cpx j hj, bpx j hj, apx j hj, seg_px_thrice]

theorem cutoff_binary_swap_witness :
    ∃ a b c, cutoff plot7 = some a ∧ cutoff a = some b ∧ cutoff b = some c ∧
      (∀ p, p < plot7.w * plot7.h → a.px p = (0, 0, 0) ∨ a.px p = (255, 255, 255)) ∧
      (∀ p, p < plot7.w * plot7.h →
        (a.px p = (0, 0, 0) → b.px p = (255, 255, 255)) ∧
        (a.px p = (255, 255, 255) → b.px p = (0, 0, 0))) ∧
      c = a :=
  cutoff_binary_swap plot7 (by decide)

/-- On a raster of one colour `edge_detect` returns, and every interior pixel is black. -/
theorem edge_detect_uniform (img : ppm) (hs : shape img (img.w * img.h))
    (c : Nat × Nat × Nat) (hc : ∀ p, p < img.w * img.h → img.px p = c) :
    ∃ out, edge_detect img = some out ∧ out.w = img.w ∧ out.h = img.h ∧
      ∀ i, img.w ≤ i → i < img.w * img.h - img.w → out.px i = (0, 0, 0) := by
  obtain ⟨seg, out, _, he, sw, _, ow, oh, _, _, spx, opx⟩ := edge_detect_spec img hs
  refine ⟨out, he, ow, oh, fun i h1 h2 => ?_⟩
  have hb := interior_bounds img i ((mem_interior img i).mpr ⟨h1, h2⟩)
  have e : ∀ j, j < img.w * img.h → seg.reds.getD j 0 = (seg_px c).1 := by
    intro j hj
    rw [px_reds, spx j hj, hc j hj]
  rw [opx i, if_pos ⟨h1, h2⟩]
  simp only [edge_px, sw]
  rw [e i (by omega), e (i + 1) (by omega), e (i + img.w) (by omega)]
  simp

/-- C13: on an all-black raster, `edge_detect` (which segments first) leaves every
interior pixel black, and so does `cutoff` followed by `edge_detect`; no interior pixel is
blue or green, so the Hough stage sees no edge pixel. -/
theorem edge_detect_black (img : ppm) (hwf : img.wf)
    (hb : ∀ p, p < img.w * img.h → img.px p = (0, 0, 0)) :
    (∃ out, edge_detect img = some out ∧
      ∀ i, img.w ≤ i → i < img.w * img.h - img.w →
        out.px i = (0, 0, 0) ∧ is_edge out i = false) ∧
    (∃ out, (cutoff img).bind edge_detect = some out ∧
      ∀ i, img.w ≤ i → i < img.w * img.h - img.w →
        out.px i = (0, 0, 0) ∧ is_edge out i = false) := by
  have key : ∀ (o : ppm) (i : Nat), o.px i = (0, 0, 0) → is_edge o i = false := by
    intro o i h
    simp only [ppm.px, Prod.mk.injEq] at h
    simp only [is_edge, h.2.1, h.2.2, decide_eq_false_iff_not]
    omega
  constructor
  · obtain ⟨out, he, _, _, opx⟩ := edge_detect_uniform img (wf_shape hwf) _ hb
    exact ⟨out, he, fun i h1 h2 => ⟨opx i h1 h2, key out i (opx i h1 h2)⟩⟩
  · obtain ⟨seg, hc, sw, sh, ssh, spx⟩ := cutoff_spec img (wf_shape hwf)
    have hs2 : shape seg (seg.w * seg.h) := by rw [sw, sh]; exact ssh
    have hu : ∀ p, p < seg.w * seg.h → seg.px p = (255, 255, 255) := by
      intro p hp
      rw [sw, sh] at hp
      rw [spx p hp, hb p hp, seg_px_black]
    obtain ⟨out, he, _, _, opx⟩ := edge_detect_uniform seg hs2 _ hu
    rw [sw, sh] at opx
    refine ⟨out, by rw [hc]; exact he, fun i h1 h2 => ⟨opx i h1 h2, key out i (opx i h1 h2)⟩⟩

theorem edge_detect_black_witness :
    (∃ out, edge_detect black5 = some out ∧
      ∀ i, black5.w ≤ i → i < black5.w * black5.h - black5.w →
        out.px i = (0, 0, 0) ∧ is_edge out i = false) ∧
    (∃ out, (cutoff black5).bind edge_detect = some out ∧
      ∀ i, black5.w ≤ i → i < black5.w * black5.h - black5.w →
        out.px i = (0, 0, 0) ∧ is_edge out i = false) :=
  edge_detect_black black5 (by decide) (by decide)

/-- The three reds a gradient step reads are 0 or 255 in a segmented raster, and each
tells the colour of its pixel. -/
theorem seg_red_cases (seg : ppm) (j : Nat)
    (h : seg.px j = (0, 0, 0) ∨ seg.px j = (255, 255, 255)) :
    (seg.reds.getD j 0 = 0 ∧ seg.px j = (0, 0, 0)) ∨
    (seg.reds.getD j 0 = 255 ∧ seg.px j = (255, 255, 255)) := by
  rcases h with e | e
  · exact Or.inl ⟨by rw [px_reds, e], e⟩
  · exact Or.inr ⟨by rw [px_reds, e], e⟩

/-- C16: after `edge_detect` an interior pixel `i` is blue exactly when pixel `i` is white
in the segmented raster and `i+1` or `i+w` is black there, green exactly when pixel `i` is
black there and `i+1` or `i+w` is white, and black otherwise. Its red channel is 0, it
never has blue and green both set, and the other tie-break gives the same colour. -/
theorem edge_detect_colours (img : ppm) (hwf : img.wf) :
    ∃ seg out, cutoff img = some seg ∧ edge_detect img = some out ∧
      ∀ i, img.w ≤ i → i < img.w * img.h - img.w →
        (out.px i = (0, 0, 255) ↔ seg.px i = (255, 255, 255) ∧
          (seg.px (i + 1) = (0, 0, 0) ∨ seg.px (i + img.w) = (0, 0, 0))) ∧
        (out.px i = (0, 255, 0) ↔ seg.px i = (0, 0, 0) ∧
          (seg.px (i + 1) = (255, 255, 255) ∨ seg.px (i + img.w) = (255, 255, 255))) ∧
        (out.px i = (0, 0, 255) ∨ out.px i = (0, 255, 0) ∨ out.px i = (0, 0, 0)) ∧
        out.reds.getD i 0 = 0 ∧
        ¬ (out.blues.getD i 0 = 255 ∧ out.greens.getD i 0 = 255) ∧
        out.px i = edge_px_alt seg i := by
  obtain ⟨seg, out, hc, he, sw, _, _, _, _, _, spx, opx⟩ := edge_detect_spec img (wf_shape hwf)
  refine ⟨seg, out, hc, he, fun i h1 h2 => ?_⟩
  have hb := interior_bounds img i ((mem_interior img i).mpr ⟨h1, h2⟩)
  have bin : ∀ j, j < img.w * img.h →
      seg.px j = (0, 0, 0) ∨ seg.px j = (255, 255, 255) := by
    intro j hj
    rw [spx j hj]
    exact seg_px_cases _
  have hr : out.reds.getD i 0 = (out.px i).1 := rfl
  have hg : out.greens.getD i 0 = (out.px i).2.1 := rfl
  have hbl : out.blues.getD i 0 = (out.px i).2.2 := rfl
  rw [hr, hg, hbl, opx i, if_pos ⟨h1, h2⟩]
  simp only [edge_px, edge_px_alt, sw]
  rcases seg_red_cases seg i (bin i (by omega)) with ⟨a1, a2⟩ | ⟨a1, a2⟩ <;>
  rcases seg_red_cases seg (i + 1) (bin (i + 1) (by omega)) with ⟨b1, b2⟩ | ⟨b1, b2⟩ <;>
  rcases seg_red_cases seg (i + img.w) (bin (i + img.w) (by omega)) with ⟨c1, c2⟩ | ⟨c1, c2⟩ <;>
  · rw [a1, b1, c1, a2, b2, c2]
    decide

theorem edge_detect_colours_witness :
    ∃ seg out, cutoff plot7 = some seg ∧ edge_detect plot7 = some out ∧
      ∀ i, plot7.w ≤ i → i < plot7.w * plot7.h - plot7.w →
        (out.px i = (0, 0, 255) ↔ seg.px i = (255, 255, 255) ∧
          (seg.px (i + 1) = (0, 0, 0) ∨ seg.px (i + plot7.w) = (0, 0, 0))) ∧
        (out.px i = (0, 255, 0) ↔ seg.px i = (0, 0, 0) ∧
          (seg.px (i + 1) = (255, 255, 255) ∨ seg.px (i + plot7.w) = (255, 255, 255))) ∧
        (out.px i = (0, 0, 255) ∨ out.px i = (0, 255, 0) ∨ out.px i = (0, 0, 0)) ∧
        out.reds.getD i 0 = 0 ∧
        ¬ (out.blues.getD i 0 = 255 ∧ out.greens.getD i 0 = 255) ∧
        out.px i = edge_px_alt seg i :=
  edge_detect_colours plot7 (by decide)

/-! ## Further claims on the Hough stage and on peak extraction -/

theorem votes_of_no_edge (img : ppm) (circ : Nat → Int × Int) (l : List Nat) (p : Nat)
    (hne : ∀ i, i ∈ l → is_edge img i = false) : votes_of img circ l p = 0 := by
  have : l.filter (is_edge img) = [] := by
    rw [List.filter_eq_nil_iff]
    intro i hi
    rw [hne i hi]
    exact Bool.false_ne_true
  simp [votes_of, this]

theorem hough_zero_px (img : ppm) (p : Nat) : (hough_zero img).px p = (0, 0, 0) := by
  simp only [ppm.px, hough_zero, List.getD_eq_getElem?_getD, List.getElem?_replicate]
  split <;> rfl

/-- Without an interior edge pixel `find_points` returns the zero raster and the list it
was given. -/
theorem find_points_no_edge (img : ppm) (circ : Nat → Int × Int) (cs : PLL)
    (hs : shape img (img.w * img.h)) (hne : ∀ i, i ∈ interior img → is_edge img i = false) :
    find_points img circ cs = some (hough_zero img, cs) := by
  have hr : in_range img circ := by
    intro i d hi he
    rw [hne i hi] at he
    exact absurd he Bool.false_ne_true
  obtain ⟨hough, cs1, h⟩ := find_points_returns img circ cs hs hr
  obtain ⟨⟨hw, hh, hsh, hpx⟩, mx, m2, m3, hcs⟩ := find_points_spec img circ cs cs1 hough hs h
  have hv : ∀ p, votes img circ p = 0 := fun p => votes_of_no_edge img circ _ p hne
  have hz : ∀ p, p < img.w * img.h → hough.px p = (0, 0, 0) := by
    intro p hp
    rw [hpx p hp, hv p]
    rfl
  have e1 : hough = hough_zero img := by
    apply ppm_ext hough (hough_zero img) (img.w * img.h) hw hh hsh
      (by simp [shape, hough_zero])
    intro j hj
    rw [hz j hj, hough_zero_px]
  have hred : ∀ i, i ∈ interior img → red hough i = 0 := by
    intro i hi
    have hb := interior_bounds img i hi
    have := hz i (by omega)
    simp only [ppm.px, Prod.mk.injEq] at this
    exact this.1
  have hmx : mx = 0 := by
    rcases m3 with e | ⟨i, hi, e⟩
    · exact e
    · rw [← e]; exact hred i hi
  have e2 : cs1 = cs := by
    rw [hcs]
    have : (interior img).filter (fun i =>
        decide (4 * mx < 5 * red hough i) && local_max hough i) = [] := by
      rw [List.filter_eq_nil_iff]
      intro i hi
      rw [hred i hi, hmx]
      simp
    rw [this]
    rfl
  rw [h, e1, e2]

/-- C17: on an edge raster with no interior pixel that has blue = 255 or green = 255, and
so on every raster of height at most 2, for every radius, `find_points` returns the
all-zero vote raster and the list of centres exactly as it was passed in. -/
theorem find_points_without_edges (img : ppm) (circ : Nat → Int × Int) (cs : PLL)
    (hwf : img.wf) :
    ((∀ i, img.w ≤ i → i < img.w * img.h - img.w →
        ¬ (img.blues.getD i 0 = 255 ∨ img.greens.getD i 0 = 255)) →
      find_points img circ cs = some (hough_zero img, cs)) ∧
    (img.h ≤ 2 → find_points img circ cs = some (hough_zero img, cs)) ∧
    ∀ p, (hough_zero img).px p = (0, 0, 0) := by
  refine ⟨?_, ?_, hough_zero_px img⟩
  · intro hne
    apply find_points_no_edge img circ cs (wf_shape hwf)
    intro i hi
    have hb := (mem_interior img i).mp hi
    simp only [is_edge, decide_eq_false_iff_not]
    exact hne i hb.1 hb.2
  · intro h2
    apply find_points_no_edge img circ cs (wf_shape hwf)
    intro i hi
    have hb := (mem_interior img i).mp hi
    have := interior_empty img h2
    omega

theorem find_points_without_edges_witness :
    find_points plot7 circ15 [(1, 1)] = some (hough_zero plot7, [(1, 1)]) :=
  (find_points_without_edges plot7 circ15 [(1, 1)] (by decide)).1 (by decide)

/-! ## Runs that leave the buffers -/

/-- A loop fails as soon as one element of its list makes the body fail in every state
the loop can be in. -/
theorem foldlM_none {σ α : Type} (f : σ → α → Option σ) (Inv : σ → Prop) (k : α) :
    ∀ (l : List α), k ∈ l → (∀ st, Inv st → f st k = none) →
      (∀ st a st1, a ∈ l → Inv st → f st a = some st1 → Inv st1) →
      ∀ st, Inv st → l.foldlM f st = none := by
  intro l
  induction l with
  | nil => intro hk; exact absurd hk (List.not_mem_nil k)
  | cons a l ih =>
    intro hk hfail hpres st hst
    simp only [List.foldlM_cons]
    cases h1 : f st a with
    | none => rfl
    | some st1 =>
      simp only [Option.bind_eq_bind, Option.some_bind]
      rcases List.mem_cons.mp hk with e | e
      · subst e
        rw [hfail st hst] at h1
        cases h1
      · exact ih e hfail
          (fun s b s1 hb hi hf => hpres s b s1 (List.mem_cons_of_mem a hb) hi hf)
          st1 (hpres st a st1 (List.mem_cons_self a l) hst h1)

/-- A degree step whose checks pass and whose target is outside the buffers fails. -/
theorem draw_step_none (circ : Nat → Int × Int) (i d w h : Nat) (st : ppm)
    (hw : st.w = w) (hh : st.h = h) (hs : shape st (w * h))
    (hp : pass w h circ i d = true)
    (ht : target w circ i d < 0 ∨ ((w * h : Nat) : Int) ≤ target w circ i d) :
    draw_step circ (i : Int) st d = none := by
  obtain ⟨s1, _, _⟩ := hs
  simp only [pass, decide_eq_true_eq] at hp
  simp only [target] at ht
  simp only [draw_step, hw, hh]
  rw [if_pos hp.1, if_pos hp.2]
  have : bump st.reds ((i : Int) + (circ d).1 + (circ d).2 * (w : Int)) = none := by
    unfold bump rd
    by_cases h0 : 0 ≤ (i : Int) + (circ d).1 + (circ d).2 * (w : Int)
    · rw [if_pos h0]
      have hn : st.reds[((i : Int) + (circ d).1 + (circ d).2 * (w : Int)).toNat]? = none := by
        apply List.getElem?_eq_none
        omega
      rw [hn]
      rfl
    · rw [if_neg h0]
      rfl
  rw [this]
  rfl

/-- One step of the voting loop keeps the raster a raster of saturated counts. -/
theorem vote_step_counts (img : ppm) (circ : Nat → Int × Int) (st st1 : ppm) (k : Nat)
    (hs : shape img (img.w * img.h)) (hk : k ∈ interior img)
    (hi : ∃ c, counts st img.w img.h c) (hf : vote_step img circ st k = some st1) :
    ∃ c, counts st1 img.w img.h c := by
  obtain ⟨c, hc⟩ := hi
  have hb := interior_bounds img k hk
  obtain ⟨_, s2, s3⟩ := hs
  simp only [vote_step] at hf
  rw [getElem?_of_lt _ _ (by omega), getElem?_of_lt _ _ (by omega)] at hf
  simp only [Option.some_bind] at hf
  by_cases he : img.blues.getD k 0 = 255 ∨ img.greens.getD k 0 = 255
  · rw [if_pos he] at hf
    exact ⟨_, draw_circle_spec circ k img.w img.h st st1 c hc hf⟩
  · rw [if_neg he] at hf
    cases hf
    exact ⟨c, hc⟩

/-- When a vote of an interior edge pixel passes both checks and has its target outside
the buffers, `find_points` does not return. -/
theorem find_points_leaves (img : ppm) (circ : Nat → Int × Int) (cs : PLL)
    (hs : shape img (img.w * img.h)) (i d : Nat) (hi : i ∈ interior img)
    (he : is_edge img i = true) (hd : d < 360) (hp : pass img.w img.h circ i d = true)
    (ht : target img.w circ i d < 0 ∨
      ((img.w * img.h : Nat) : Int) ≤ target img.w circ i d) :
    find_points img circ cs = none := by
  have hdraw : ∀ st, (∃ c, counts st img.w img.h c) → draw_circle st (i : Int) circ = none := by
    intro st hst
    apply foldlM_none (draw_step circ (i : Int)) (fun s => ∃ c, counts s img.w img.h c) d
      (List.range 360) (List.mem_range.mpr hd)
    · intro s ⟨c, hc⟩
      exact draw_step_none circ i d img.w img.h s hc.1 hc.2.1 hc.2.2.1 hp ht
    · intro s a s1 _ ⟨c, hc⟩ hf
      exact ⟨_, draw_step_spec circ i a img.w img.h s s1 c hc hf⟩
    · exact hst
  have hvote : find_points_votes img circ = none := by
    apply foldlM_none (vote_step img circ) (fun s => ∃ c, counts s img.w img.h c) i
      (interior img) hi
    · intro s hsc
      have hb := interior_bounds img i hi
      simp only [vote_step]
      rw [getElem?_of_lt _ _ (by have := hs.2.2; omega),
        getElem?_of_lt _ _ (by have := hs.2.1; omega)]
      simp only [Option.some_bind]
      simp only [is_edge, decide_eq_true_eq] at he
      rw [if_pos he]
      exact hdraw s hsc
    · intro s a s1 ha hsc hf
      exact vote_step_counts img circ s s1 a hs ha hsc hf
    · refine ⟨fun _ => 0, rfl, rfl, by simp [shape, hough_zero], fun p _ => ?_⟩
      rw [hough_zero_px]
      rfl
  simp only [find_points, hvote, Option.none_bind]

/-! ## Scenario C -/

theorem hits_eq_count (w h : Nat) (circ : Nat → Int × Int) (i p : Nat) :
    hits w h circ i p = (hit_targets w h circ i).count (p : Int) := by
  simp only [hits, hit_targets, List.count, List.countP_map, List.countP_filter]
  apply List.countP_congr
  intro d _
  simp [Bool.and_comm]

theorem sum_eq_sum_getD (l : List Nat) :
    l.sum = ((List.range l.length).map fun p => l.getD p 0).sum := by
  congr 1
  apply List.ext_getElem (by simp)
  intro n h1 h2
  simp [List.getD_eq_getElem?_getD, List.getElem?_eq_getElem h1]

theorem sum_indicator (a s : Nat) :
    ((List.range s).map fun p => if a = p then 1 else 0).sum = if a < s then 1 else 0 := by
  induction s with
  | zero => simp
  | succ s ih =>
    rw [List.range_succ, List.map_append, List.sum_append, ih]
    simp only [List.map_cons, List.map_nil, List.sum_cons, List.sum_nil]
    split_ifs <;> omega

/-- Counting a list of indices below `s` pixel by pixel counts every element once. -/
theorem sum_count_range (l : List Nat) (s : Nat) (h : ∀ t, t ∈ l → t < s) :
    ((List.range s).map fun p => l.count p).sum = l.length := by
  induction l with
  | nil => simp
  | cons a l ih =>
    have e : (fun p => (a :: l).count p) = fun p => l.count p + if a = p then 1 else 0 := by
      funext p
      rw [List.count_cons]
      simp
    rw [e, List.sum_map_add, ih (fun t ht => h t (List.mem_cons_of_mem a ht)), sum_indicator,
      if_pos (h a (List.mem_cons_self a l))]
    rfl

set_option maxRecDepth 1000000 in
theorem hit_targets_20 : hit_targets 20 20 circ5 210 = targets20.map Int.ofNat := by decide

set_option maxRecDepth 1000000 in
theorem targets20_inside : ∀ t, t ∈ targets20 → t < 400 := by decide

set_option maxRecDepth 1000000 in
theorem targets20_dedup : ∀ t, t ∈ targets20.dedup → targets20.count t < 255 := by decide

set_option maxRecDepth 100000 in
theorem targets20_length : targets20.length = 360 := by decide

theorem targets20_count (p : Nat) : targets20.count p < 255 := by
  by_cases h : p ∈ targets20
  · exact targets20_dedup p (List.mem_dedup.mpr h)
  · rw [List.count_eq_zero_of_not_mem h]
    omega

theorem hits_20 (p : Nat) : hits 20 20 circ5 210 p = targets20.count p := by
  rw [hits_eq_count, hit_targets_20]
  exact List.count_map_of_injective targets20 Int.ofNat (fun a b e => Int.ofNat.inj e) p

theorem is_edge_black20 (i : Nat) : is_edge black20 i = decide (i = 210) := by
  have hb : black20.blues.getD i 0 = 0 := by
    simp only [black20, List.getD_eq_getElem?_getD, List.getElem?_replicate]
    split <;> rfl
  have hg : black20.greens.getD i 0 = if i = 210 then 255 else 0 := by
    simp only [black20]
    by_cases h1 : i < 210
    · rw [List.getD_append _ _ _ _ (by rw [List.length_replicate]; exact h1)]
      simp only [List.getD_eq_getElem?_getD, List.getElem?_replicate, if_pos h1]
      rw [if_neg (by omega)]
      rfl
    · rw [List.getD_append_right _ _ _ _ (by rw [List.length_replicate]; omega)]
      simp only [List.length_replicate]
      by_cases h2 : i = 210
      · subst h2; rfl
      · rw [if_neg h2]
        obtain ⟨k, hk⟩ : ∃ k, i - 210 = k + 1 := ⟨i - 211, by omega⟩
        rw [hk]
        simp only [List.getD_eq_getElem?_getD, List.getElem?_cons_succ, List.getElem?_replicate]
        split <;> rfl
  simp only [is_edge, hb, hg]
  by_cases h : i = 210
  · simp [h]
  · simp [h]

theorem votes_black20 (p : Nat) : votes black20 circ5 p = targets20.count p := by
  have e : (interior black20).filter (is_edge black20) = [210] := by
    have e1 : is_edge black20 = fun i => decide (i = 210) := funext is_edge_black20
    rw [e1]
    decide
  have : votes black20 circ5 p = votes_of black20 circ5 (interior black20) p := rfl
  rw [this, votes_of, e]
  simp only [List.map_cons, List.map_nil, List.sum_cons, List.sum_nil, Nat.add_zero]
  exact hits_20 p

set_option maxRecDepth 100000 in
theorem wf_black20 : black20.wf := by decide

theorem shape_black20 : shape black20 (black20.w * black20.h) := by
  refine ⟨?_, ?_, ?_⟩ <;>
    simp only [black20, List.length_replicate, List.length_append, List.length_cons]

theorem in_range_black20 : in_range black20 circ5 := by
  intro i d _ he hd hp
  rw [is_edge_black20, decide_eq_true_eq] at he
  subst he
  have hm : target 20 circ5 210 d ∈ hit_targets 20 20 circ5 210 := by
    simp only [hit_targets, List.mem_map, List.mem_filter, List.mem_range]
    exact ⟨d, ⟨hd, hp⟩, rfl⟩
  rw [hit_targets_20, List.mem_map] at hm
  obtain ⟨t, ht, e⟩ := hm
  have := targets20_inside t ht
  change 0 ≤ target 20 circ5 210 d ∧ target 20 circ5 210 d < ((20 * 20 : Nat) : Int)
  rw [← e]
  constructor
  · exact Int.ofNat_nonneg t
  · exact Int.ofNat_lt.mpr (by omega)

/-- C14, amended: on the 20x20 raster that is black except for the pure green pixel at
(10,10), at radius 5, `find_points` returns; all 360 degree steps of the one circle, around
(10,10), pass both checks; no pixel of the vote raster saturates; and the red values, as
the green and the blue ones, sum to 360: the accumulator makes exactly 360 increments. -/
theorem scenario_c_black :
    black20.wf ∧
    ∃ hough cs, find_points black20 circ5 [] = some (hough, cs) ∧
      (interior black20).filter (is_edge black20) = [210] ∧
      (hit_targets 20 20 circ5 210).length = 360 ∧
      (∀ v, v ∈ hough.reds → v < 255) ∧
      hough.reds.sum = 360 ∧ hough.greens.sum = 360 ∧ hough.blues.sum = 360 := by
  obtain ⟨hough, cs, h⟩ := find_points_returns black20 circ5 [] shape_black20 in_range_black20
  obtain ⟨⟨_, _, ⟨s1, s2, s3⟩, hpx⟩, _⟩ :=
    find_points_spec black20 circ5 [] cs hough shape_black20 h
  have hval : ∀ p, p < 400 → hough.px p =
      (targets20.count p, targets20.count p, targets20.count p) := by
    intro p hp
    rw [hpx p hp, votes_black20, Nat.min_eq_right (by have := targets20_count p; omega)]
  have hsum : ∀ (l : List Nat), l.length = 400 →
      (∀ p, p < 400 → l.getD p 0 = targets20.count p) → l.sum = 360 := by
    intro l hl hg
    rw [sum_eq_sum_getD, hl]
    have : (List.range 400).map (fun p => l.getD p 0)
        = (List.range 400).map (fun p => targets20.count p) := by
      apply List.map_congr_left
      intro p hp
      exact hg p (List.mem_range.mp hp)
    rw [this, sum_count_range targets20 400 targets20_inside, targets20_length]
  have e : (interior black20).filter (is_edge black20) = [210] := by
    have e1 : is_edge black20 = fun i => decide (i = 210) := funext is_edge_black20
    rw [e1]
    decide
  refine ⟨wf_black20, hough, cs, h, e, by rw [hit_targets_20, List.length_map, targets20_length], ?_,
    hsum _ s1 (fun p hp => ?_), hsum _ s2 (fun p hp => ?_), hsum _ s3 (fun p hp => ?_)⟩
  · intro v hv
    obtain ⟨n, hn, e⟩ := List.mem_iff_getElem.mp hv
    have hn4 : n < 400 := by
      have e4 : black20.w * black20.h = 400 := rfl
      omega
    have := hval n hn4
    simp only [ppm.px, Prod.mk.injEq, List.getD_eq_getElem?_getD,
      List.getElem?_eq_getElem hn, Option.getD_some] at this
    rw [← e, this.1]
    exact targets20_count n
  · have := hval p hp
    simp only [ppm.px, Prod.mk.injEq] at this
    exact this.1
  · have := hval p hp
    simp only [ppm.px, Prod.mk.injEq] at this
    exact this.2.1
  · have := hval p hp
    simp only [ppm.px, Prod.mk.injEq] at this
    exact this.2.2

theorem is_edge_white20 (i : Nat) (hi : i < 400) : is_edge white20 i = true := by
  have hg : white20.greens.getD i 0 = 255 := by
    simp only [white20, List.getD_eq_getElem?_getD, List.getElem?_replicate, if_pos hi]
    rfl
  simp only [is_edge, hg, decide_eq_true_eq]
  exact Or.inr trivial

set_option maxRecDepth 100000 in
theorem wf_white20 : white20.wf := by decide

theorem shape_white20 : shape white20 (white20.w * white20.h) := by
  refine ⟨?_, ?_, ?_⟩ <;>
    simp only [white20, List.length_replicate, List.length_append, List.length_cons]

/-- C14 as stated fails: on the white raster the pixel (10,10) is not the only edge pixel.
Every white pixel has blue = 255 (and green = 255), so all 360 interior pixels draw a
circle; the first of them, index 20, has at degree 192 the offsets `(-4, -1)`, both checks
pass (`16 ≥ 0`, `0 ≥ 0`) and the target is `-4`: `find_points` returns no vote raster. -/
theorem scenario_c_white :
    white20.wf ∧
    (∀ i, i < 400 → is_edge white20 i = true) ∧
    ((interior white20).filter (is_edge white20)).length = 360 ∧
    circ5 192 = (-4, -1) ∧ pass 20 20 circ5 20 192 = true ∧ target 20 circ5 20 192 = -4 ∧
    find_points white20 circ5 [] = none := by
  have hi : 20 ∈ interior white20 := (mem_interior white20 20).mpr (by decide)
  refine ⟨wf_white20, is_edge_white20, ?_, by decide, by decide, by decide, ?_⟩
  · have : (interior white20).filter (is_edge white20) = interior white20 := by
      rw [List.filter_eq_self]
      intro i hi
      have := interior_bounds white20 i hi
      exact is_edge_white20 i (by simp only [white20] at this; omega)
    rw [this]
    simp only [interior, List.length_range']
    rfl
  · exact find_points_leaves white20 circ5 [] shape_white20 20 192 hi
      (is_edge_white20 20 (by omega)) (by omega) (by decide) (Or.inl (by decide))

/-! ## The P3 text -/

theorem digit_not_space (c : Nat) (h : isdigit c = true) : isspace c = false := by
  simp only [isdigit, decide_eq_true_eq] at h
  simp only [isspace, decide_eq_false_iff_not]
  omega

theorem skip_space_cons (c : Nat) (rest : List Nat) (h : isspace c = false) :
    skip_space (c :: rest) = c :: rest := by
  simp [skip_space, h]

theorem dec_core_digits : ∀ (fuel n : Nat) (acc : List Nat),
    (∀ c, c ∈ acc → isdigit c = true) → ∀ c, c ∈ dec_core fuel n acc → isdigit c = true := by
  intro fuel
  induction fuel with
  | zero => intro n acc h c hc; exact h c hc
  | succ f ih =>
    intro n acc h c hc
    have hd : isdigit (48 + n % 10) = true := by
      simp only [isdigit, decide_eq_true_eq]
      omega
    have hacc : ∀ c, c ∈ (48 + n % 10) :: acc → isdigit c = true := by
      intro c hc
      rcases List.mem_cons.mp hc with e | e
      · rw [e]; exact hd
      · exact h c e
    simp only [dec_core] at hc
    split at hc
    · exact hacc c hc
    · exact ih _ _ hacc c hc

theorem dec_core_ne_nil : ∀ (fuel n : Nat) (acc : List Nat),
    (0 < fuel ∨ acc ≠ []) → dec_core fuel n acc ≠ [] := by
  intro fuel
  induction fuel with
  | zero =>
    intro n acc h
    rcases h with h | h
    · omega
    · exact h
  | succ f ih =>
    intro n acc _
    simp only [dec_core]
    split
    · exact List.cons_ne_nil _ _
    · exact ih _ _ (Or.inr (List.cons_ne_nil _ _))

theorem dec_core_value : ∀ (fuel n : Nat) (acc : List Nat), n < fuel →
    digits_value 0 (dec_core fuel n acc) = digits_value n acc := by
  intro fuel
  induction fuel with
  | zero => intro n acc h; omega
  | succ f ih =>
    intro n acc h
    simp only [dec_core]
    split
    · rename_i h0
      simp only [digits_value, List.foldl_cons]
      congr 1
      omega
    · rename_i h0
      rw [ih (n / 10) _ (by omega)]
      simp only [digits_value, List.foldl_cons]
      congr 1
      omega

/-- The text of `%d` is not empty, has digits only, and denotes the number printed. -/
theorem dec_spec (n : Nat) :
    (∃ c t, dec n = c :: t ∧ isdigit c = true) ∧
    (∀ c, c ∈ dec n → isdigit c = true) ∧ digits_value 0 (dec n) = n := by
  have hd : ∀ c, c ∈ dec n → isdigit c = true :=
    dec_core_digits (n + 1) n [] (fun c hc => absurd hc (List.not_mem_nil c))
  refine ⟨?_, hd, ?_⟩
  · cases h : dec n with
    | nil => exact absurd h (dec_core_ne_nil (n + 1) n [] (Or.inl (by omega)))
    | cons c t => exact ⟨c, t, rfl, hd c (by rw [h]; exact List.mem_cons_self c t)⟩
  · have := dec_core_value (n + 1) n [] (by omega)
    simpa [digits_value, dec] using this

theorem scan_digits_append (l rest : List Nat) (hl : ∀ c, c ∈ l → isdigit c = true)
    (hr : stops rest) : ∀ a, scan_digits a (l ++ rest) = (digits_value a l, rest) := by
  induction l with
  | nil =>
    intro a
    cases rest with
    | nil => rfl
    | cons c t => simp [scan_digits, hr c t rfl, digits_value]
  | cons c l ih =>
    intro a
    have hc := hl c (List.mem_cons_self c l)
    show scan_digits a (c :: (l ++ rest)) = _
    rw [scan_digits, if_pos hc, ih (fun d hd => hl d (List.mem_cons_of_mem c hd))]
    rfl

/-- Reading back a printed number gives the number and leaves the rest of the input. -/
theorem scan_num_dec (n : Nat) (rest : List Nat) (hr : stops rest) :
    scan_num (dec n ++ rest) = some ((n : Int), rest) := by
  obtain ⟨⟨c, t, e, hc⟩, hd, hv⟩ := dec_spec n
  have hsp := digit_not_space c hc
  have h45 : c ≠ 45 := by
    simp only [isdigit, decide_eq_true_eq] at hc; omega
  have h43 : c ≠ 43 := by
    simp only [isdigit, decide_eq_true_eq] at hc; omega
  have hs : skip_space (dec n ++ rest) = c :: (t ++ rest) := by
    rw [e]; exact skip_space_cons c _ hsp
  have hsd : scan_digits 0 (c :: (t ++ rest)) = (n, rest) := by
    have := scan_digits_append (dec n) rest hd hr 0
    rw [hv, e] at this
    exact this
  simp only [scan_num, hs, if_neg h45, if_neg h43, scan_unsigned, hc, if_true, hsd,
    Option.map_some']

theorem skip_space_dec (n : Nat) (rest : List Nat) :
    skip_space (dec n ++ rest) = dec n ++ rest := by
  obtain ⟨⟨c, t, e, hc⟩, _, _⟩ := dec_spec n
  rw [e]
  exact skip_space_cons c _ (digit_not_space c hc)

theorem stops_cons (c : Nat) (t : List Nat) (h : isdigit c = false) : stops (c :: t) := by
  intro d u e
  cases e
  exact h

theorem lines_head (img : ppm) (l : List Nat) :
    lines img l = [] ∨ ∃ c t, lines img l = c :: t ∧ isdigit c = true := by
  cases l with
  | nil => exact Or.inl rfl
  | cons i l =>
    obtain ⟨⟨c, t, e, hc⟩, _, _⟩ := dec_spec (img.reds.getD i 0)
    have h : lines img (i :: l) = c :: (t ++ (9 :: (dec (img.greens.getD i 0) ++ 9 ::
        (dec (img.blues.getD i 0) ++ [10])) ++ lines img l)) := by
      simp only [lines, line, e, List.cons_append, List.append_assoc]
    exact Or.inr ⟨c, _, h, hc⟩

theorem skip_space_lines (img : ppm) (l : List Nat) :
    skip_space (lines img l) = lines img l := by
  rcases lines_head img l with e | ⟨c, t, e, hc⟩
  · rw [e]; rfl
  · rw [e]; exact skip_space_cons c t (digit_not_space c hc)

theorem foldl_append_lines (img : ppm) : ∀ (l : List Nat) (out : List Nat),
    l.foldl (fun o i => o ++ line img i) out = out ++ lines img l := by
  intro l
  induction l with
  | nil => intro out; simp [lines]
  | cons i l ih =>
    intro out
    simp only [List.foldl_cons, ih, lines, List.append_assoc]

/-- On a raster of `int` size `ppm_out` returns: the header, then the lines of all pixels
in index order. -/
theorem ppm_out_eq (img : ppm) (hs : shape img (img.w * img.h))
    (hw : img.w < 2 ^ 31) (hh : img.h < 2 ^ 31) (hm : img.w * img.h < 2 ^ 31) :
    ppm_out img = some (80 :: 51 :: 10 :: (dec img.w ++ 32 :: (dec img.h ++
      10 :: 50 :: 53 :: 53 :: 10 :: lines img (List.range (img.w * img.h))))) := by
  have e1 : (img.w * img.h) % 2 ^ 32 = img.w * img.h := Nat.mod_eq_of_lt (by omega)
  have e2 : fmt_d img.w = dec img.w := by
    have : img.w % 2 ^ 32 = img.w := Nat.mod_eq_of_lt (by omega)
    simp only [fmt_d, this, if_pos hw]
  have e3 : fmt_d img.h = dec img.h := by
    have : img.h % 2 ^ 32 = img.h := Nat.mod_eq_of_lt (by omega)
    simp only [fmt_d, this, if_pos hh]
  simp only [ppm_out, e1, if_pos hm, e2, e3]
  rw [foldlM_eq_foldl (out_step img) (fun o i => o ++ line img i)]
  · rw [foldl_append_lines]
    simp only [List.cons_append, List.nil_append, List.append_assoc]
  · intro k hk out
    have hk2 := List.mem_range.mp hk
    obtain ⟨s1, s2, s3⟩ := hs
    simp only [out_step]
    rw [getElem?_of_lt _ _ (by omega), getElem?_of_lt _ _ (by omega),
      getElem?_of_lt _ _ (by omega)]
    rfl

theorem byte_of_nat (n : Nat) (h : n < 256) : (((n : Int) % 256).toNat) = n := by
  omega

/-- Reading the lines of the pixels at the indices `l` appends their bytes. -/
theorem read_pixels_lines (img : ppm)
    (hr : ∀ v, v ∈ img.reds → v < 256) (hg : ∀ v, v ∈ img.greens → v < 256)
    (hb : ∀ v, v ∈ img.blues → v < 256) :
    ∀ (l : List Nat) (acc : ppm), (∀ i, i ∈ l → i < img.reds.length ∧
        i < img.greens.length ∧ i < img.blues.length) →
      read_pixels l.length (lines img l) acc =
        some { acc with reds := acc.reds ++ l.map (fun i => img.reds.getD i 0),
                        greens := acc.greens ++ l.map (fun i => img.greens.getD i 0),
                        blues := acc.blues ++ l.map (fun i => img.blues.getD i 0) } := by
  have hbyte : ∀ (m : List Nat) (i : Nat), (∀ v, v ∈ m → v < 256) → i < m.length →
      m.getD i 0 < 256 := by
    intro m i hm hi
    apply hm
    simp only [List.getD_eq_getElem?_getD, List.getElem?_eq_getElem hi, Option.getD_some]
    exact List.getElem_mem _
  intro l
  induction l with
  | nil => intro acc _; simp [read_pixels]
  | cons i l ih =>
    intro acc hl
    obtain ⟨h1, h2, h3⟩ := hl i (List.mem_cons_self i l)
    have s9 : ∀ t, stops (9 :: t) := fun t => stops_cons 9 t (by decide)
    have s10 : ∀ t, stops (10 :: t) := fun t => stops_cons 10 t (by decide)
    have k9 : ∀ n t, skip_space (9 :: (dec n ++ t)) = dec n ++ t := by
      intro n t
      have : skip_space (9 :: (dec n ++ t)) = skip_space (dec n ++ t) := by
        simp [skip_space, isspace]
      rw [this, skip_space_dec]
    have k10 : skip_space (10 :: lines img l) = lines img l := by
      have : skip_space (10 :: lines img l) = skip_space (lines img l) := by
        simp [skip_space, isspace]
      rw [this, skip_space_lines]
    have e : lines img (i :: l) = dec (img.reds.getD i 0) ++ 9 ::
        (dec (img.greens.getD i 0) ++ 9 :: (dec (img.blues.getD i 0) ++
          10 :: lines img l)) := by
      simp only [lines, line, List.append_assoc, List.cons_append, List.nil_append]
    simp only [List.length_cons, read_pixels, e]
    rw [scan_num_dec _ _ (s9 _)]
    simp only [Option.some_bind, k9]
    rw [scan_num_dec _ _ (s9 _)]
    simp only [Option.some_bind, k9]
    rw [scan_num_dec _ _ (s10 _)]
    simp only [Option.some_bind, k10]
    rw [ih _ (fun j hj => hl j (List.mem_cons_of_mem i hj))]
    simp only [byte_of_nat _ (hbyte _ i hr h1), byte_of_nat _ (hbyte _ i hg h2),
      byte_of_nat _ (hbyte _ i hb h3), List.map_cons, List.append_assoc, List.cons_append,
      List.nil_append]

theorem map_getD_range (l : List Nat) :
    (List.range l.length).map (fun p => l.getD p 0) = l := by
  apply List.ext_getElem (by simp)
  intro n h1 h2
  simp [List.getD_eq_getElem?_getD, List.getElem?_eq_getElem h2]

theorem skip_space_space (c : Nat) (t : List Nat) (h : isspace c = true) :
    skip_space (c :: t) = skip_space t := by
  simp [skip_space, h]

theorem scan_lit_char (f : Nat) (fs rest : List Nat) (hf : isspace f = false) :
    scan_lit (f :: fs) (f :: rest) = scan_lit fs rest := by
  simp [scan_lit, hf]

theorem scan_lit_space (f : Nat) (fs inp : List Nat) (hf : isspace f = true) :
    scan_lit (f :: fs) inp = scan_lit fs (skip_space inp) := by
  simp [scan_lit, hf]

theorem skip_comments_dec (n : Nat) (t : List Nat) :
    skip_comments false (dec n ++ t) = some (dec n ++ t) := by
  obtain ⟨⟨c, u, e, hc⟩, _, _⟩ := dec_spec n
  have h35 : c ≠ 35 := by
    simp only [isdigit, decide_eq_true_eq] at hc; omega
  rw [e]
  simp [skip_comments, h35]

/-- C15: for every valid raster (width and height above 0, three buffers of `w*h` bytes),
`ppm_out` writes a text, and `ppm_in` reads from that text a raster with the same width,
the same height and the same red, green and blue byte at every pixel: the raster itself. -/
theorem ppm_round_trip (img : ppm) (hwf : img.wf) (hw : 0 < img.w) (hh : 0 < img.h) :
    ∃ txt, ppm_out img = some txt ∧ ppm_in txt = some img := by
  obtain ⟨s1, s2, s3, w31, h31, m31, br, bg, bb⟩ := hwf
  refine ⟨_, ppm_out_eq img ⟨s1, s2, s3⟩ w31 h31 m31, ?_⟩
  generalize hbody : lines img (List.range (img.w * img.h)) = body
  have kb : skip_space body = body := by rw [← hbody]; exact skip_space_lines img _
  have c1 : scan_lit [80, 51, 10] (80 :: 51 :: 10 :: (dec img.w ++ 32 :: (dec img.h ++
      10 :: 50 :: 53 :: 53 :: 10 :: body)))
      = dec img.w ++ 32 :: (dec img.h ++ 10 :: 50 :: 53 :: 53 :: 10 :: body) := by
    rw [scan_lit_char 80 _ _ (by decide), scan_lit_char 51 _ _ (by decide),
      scan_lit_space 10 _ _ (by decide), skip_space_space 10 _ (by decide), skip_space_dec]
    rfl
  have c3 : scan_num (dec img.w ++ 32 :: (dec img.h ++ 10 :: 50 :: 53 :: 53 :: 10 :: body))
      = some ((img.w : Int), 32 :: (dec img.h ++ 10 :: 50 :: 53 :: 53 :: 10 :: body)) :=
    scan_num_dec _ _ (stops_cons 32 _ (by decide))
  have c4 : skip_space (32 :: (dec img.h ++ 10 :: 50 :: 53 :: 53 :: 10 :: body))
      = dec img.h ++ 10 :: 50 :: 53 :: 53 :: 10 :: body := by
    rw [skip_space_space 32 _ (by decide), skip_space_dec]
  have c5 : scan_num (dec img.h ++ 10 :: 50 :: 53 :: 53 :: 10 :: body)
      = some ((img.h : Int), 10 :: 50 :: 53 :: 53 :: 10 :: body) :=
    scan_num_dec _ _ (stops_cons 10 _ (by decide))
  have c7 : skip_space (10 :: 50 :: 53 :: 53 :: 10 :: body) = 50 :: 53 :: 53 :: 10 :: body := by
    rw [skip_space_space 10 _ (by decide), skip_space_cons 50 _ (by decide)]
  have c8 : scan_lit [50, 53, 53, 10] (50 :: 53 :: 53 :: 10 :: body) = body := by
    rw [scan_lit_char 50 _ _ (by decide), scan_lit_char 53 _ _ (by decide),
      scan_lit_char 53 _ _ (by decide), scan_lit_space 10 _ _ (by decide),
      skip_space_space 10 _ (by decide), kb]
    rfl
  have v1 : (((img.w : Int) % 2 ^ 32).toNat) = img.w := by omega
  have v2 : (((img.h : Int) % 2 ^ 32).toNat) = img.h := by omega
  have v3 : (img.w * img.h) % 2 ^ 32 = img.w * img.h := Nat.mod_eq_of_lt (by omega)
  have c9 := read_pixels_lines img br bg bb (List.range (img.w * img.h))
    { w := img.w, h := img.h, reds := [], greens := [], blues := [] }
    (fun i hi => by
      have := List.mem_range.mp hi
      omega)
  rw [List.length_range, hbody] at c9
  simp only [ppm_in, c1, skip_comments_dec, Option.some_bind, c3, c4, c5, v1, v2, v3, c7, c8]
  rw [if_neg (by omega), if_neg (by omega), c9]
  have r1 := map_getD_range img.reds
  have r2 := map_getD_range img.greens
  have r3 := map_getD_range img.blues
  rw [s1] at r1
  rw [s2] at r2
  rw [s3] at r3
  simp only [List.nil_append, r1, r2, r3]

theorem ppm_round_trip_witness :
    ∃ txt, ppm_out edge7 = some txt ∧ ppm_in txt = some edge7 :=
  ppm_round_trip edge7 (by decide) (by decide) (by decide)

/-! ## The peak loop on every vote raster -/

/-- Every red value of a raster of bytes is a byte. -/
theorem wf_red_lt (hough : ppm) (hwf : hough.wf) (i : Nat) : red hough i < 256 := by
  unfold red
  rw [List.getD_eq_getElem?_getD]
  by_cases h : i < hough.reds.length
  · rw [List.getElem?_eq_getElem h]
    exact hwf.2.2.2.2.2.2.1 _ (List.getElem_mem _)
  · rw [List.getElem?_eq_none (by omega)]
    decide

/-- The maximum scan returns on every raster of bytes: a byte that bounds the interior red
values and is one of them, or 0. -/
theorem find_points_max_spec (hough : ppm) (hwf : hough.wf) :
    ∃ mx, find_points_max hough = some mx ∧ mx < 256 ∧
      (∀ i, i ∈ interior hough → red hough i ≤ mx) ∧
      (mx = 0 ∨ ∃ i, i ∈ interior hough ∧ red hough i = mx) := by
  obtain ⟨_, m2, m3⟩ := foldl_max_spec (red hough) (interior hough) 0
  refine ⟨_, find_points_max_eq hough (wf_shape hwf), ?_, m2, ?_⟩
  · rcases m3 with e | ⟨i, _, e⟩
    · rw [e]; decide
    · rw [← e]; exact wf_red_lt hough hwf i
  · rcases m3 with e | e
    · exact Or.inl e
    · exact Or.inr e

/-- The vote raster of a run of `find_points` that returns has the dimensions of the edge
raster and holds bytes. -/
theorem find_points_hough_dims (img : ppm) (circ : Nat → Int × Int) (cs cs1 : PLL)
    (hough : ppm) (hs : shape img (img.w * img.h))
    (h : find_points img circ cs = some (hough, cs1)) :
    hough.w = img.w ∧ hough.h = img.h := by
  obtain ⟨hc, _⟩ := find_points_spec img circ cs cs1 hough hs h
  exact ⟨hc.1, hc.2.1⟩

theorem center_index_center (w : Nat) : (center_index w ∘ center w) = id := by
  funext i
  simp only [Function.comp, center_index, center, id]
  exact Nat.div_add_mod' i w

/-- C2: on every vote raster `hough` of width `w` and height `h` the maximum scan of
`find_points` returns `maxVote`, the maximum red value over the interior indices
`[w, w*h-w)` (0 when there are none), and the peak loop returns the list it was given with
centres `added` in front of it. Up to order, `added` holds the centres
`(i mod w, i div w)` of exactly the interior indices `i` with `red[i] > 0.8*maxVote` and
`red[i]` at least `red[i-1]`, `red[i+1]`, `red[i-w]` and `red[i+w]`, one centre for each
such index and no other. When `find_points` returns `hough` for an edge raster, `hough`
has its dimensions and the list returned is `added` in front of the list passed in. -/
theorem find_points_centers (hough : ppm) (cs : PLL) (hwf : hough.wf) :
    ∃ maxVote added,
      find_points_max hough = some maxVote ∧
      find_points_peaks hough maxVote cs = some (added ++ cs) ∧
      (∀ i, hough.w ≤ i → i < hough.w * hough.h - hough.w → red hough i ≤ maxVote) ∧
      (maxVote = 0 ∨
        ∃ i, hough.w ≤ i ∧ i < hough.w * hough.h - hough.w ∧ red hough i = maxVote) ∧
      added.Perm (((List.range' hough.w (hough.w * hough.h - hough.w - hough.w)).filter
        fun i =>
        decide (4 * maxVote < 5 * red hough i ∧ red hough (i - 1) ≤ red hough i ∧
          red hough (i + 1) ≤ red hough i ∧ red hough (i - hough.w) ≤ red hough i ∧
          red hough (i + hough.w) ≤ red hough i)).map fun i => (i % hough.w, i / hough.w)) ∧
      ∀ (img : ppm) (circ : Nat → Int × Int) (cs1 : PLL), img.wf →
        find_points img circ cs = some (hough, cs1) →
        hough.w = img.w ∧ hough.h = img.h ∧ cs1 = added ++ cs := by
  obtain ⟨mx, hm, hlt, m2, m3⟩ := find_points_max_spec hough hwf
  have hp := find_points_peaks_eq hough mx cs (wf_shape hwf)
  refine ⟨mx, _, hm, hp, ?_, ?_, ?_, ?_⟩
  · intro i h1 h2
    exact m2 i ((mem_interior hough i).mpr ⟨h1, h2⟩)
  · rcases m3 with e | ⟨i, hi, e⟩
    · exact Or.inl e
    · exact Or.inr ⟨i, ((mem_interior hough i).mp hi).1, ((mem_interior hough i).mp hi).2, e⟩
  · change (List.map (center hough.w) _).Perm (List.map (center hough.w) _)
    apply List.Perm.map
    have e : (fun i => gt8 (red hough i) mx && local_max hough i)
        = (fun i => decide (4 * mx < 5 * red hough i ∧ red hough (i - 1) ≤ red hough i ∧
          red hough (i + 1) ≤ red hough i ∧ red hough (i - hough.w) ≤ red hough i ∧
          red hough (i + hough.w) ≤ red hough i)) := by
      funext i
      rw [gt8_spec mx (red hough i) hlt]
      simp only [local_max, Bool.decide_and]
    rw [e]
    exact List.reverse_perm _
  · intro img circ cs1 iwf h
    obtain ⟨hw, hh⟩ := find_points_hough_dims img circ cs cs1 hough (wf_shape iwf) h
    obtain ⟨_, mx1, hm1, hp1⟩ := find_points_parts img circ cs cs1 hough h
    rw [hm] at hm1
    cases hm1
    rw [hp] at hp1
    cases hp1
    exact ⟨hw, hh, rfl⟩

theorem find_points_centers_witness :
    ∃ maxVote added,
      find_points_max hough7 = some maxVote ∧
      find_points_peaks hough7 maxVote [] = some (added ++ []) ∧
      (∀ i, hough7.w ≤ i → i < hough7.w * hough7.h - hough7.w → red hough7 i ≤ maxVote) ∧
      (maxVote = 0 ∨
        ∃ i, hough7.w ≤ i ∧ i < hough7.w * hough7.h - hough7.w ∧ red hough7 i = maxVote) ∧
      added.Perm (((List.range' hough7.w (hough7.w * hough7.h - hough7.w - hough7.w)).filter
        fun i =>
        decide (4 * maxVote < 5 * red hough7 i ∧ red hough7 (i - 1) ≤ red hough7 i ∧
          red hough7 (i + 1) ≤ red hough7 i ∧ red hough7 (i - hough7.w) ≤ red hough7 i ∧
          red hough7 (i + hough7.w) ≤ red hough7 i)).map
            fun i => (i % hough7.w, i / hough7.w)) ∧
      ∀ (img : ppm) (circ : Nat → Int × Int) (cs1 : PLL), img.wf →
        find_points img circ [] = some (hough7, cs1) →
        hough7.w = img.w ∧ hough7.h = img.h ∧ cs1 = added ++ [] :=
  find_points_centers hough7 [] (by decide)

/-- C3, amended: on every vote raster and for every maximum, the peak loop of
`find_points` returns, from the empty list, a list that is in reverse raster scan order
when read from the head: the pixel indices `y*w + x` strictly decrease, the highest pixel
index first. So is the list of every run of `find_points` that returns the raster. -/
theorem find_points_centers_order (hough : ppm) (hwf : hough.wf) :
    (∀ mx, ∃ cs1, find_points_peaks hough mx [] = some cs1 ∧
      (cs1.map (center_index hough.w)).Pairwise (· > ·)) ∧
    ∀ (img : ppm) (circ : Nat → Int × Int) (cs1 : PLL), img.wf →
      find_points img circ [] = some (hough, cs1) →
      (cs1.map (center_index img.w)).Pairwise (· > ·) := by
  have key : ∀ mx, ((((interior hough).filter fun i =>
      gt8 (red hough i) mx && local_max hough i).reverse.map (center hough.w)) ++ []).map
        (center_index hough.w) |>.Pairwise (· > ·) := by
    intro mx
    rw [List.append_nil, List.map_map, center_index_center, List.map_id,
      List.pairwise_reverse]
    apply List.Pairwise.sublist (List.filter_sublist _)
    exact List.pairwise_lt_range' _ _
  refine ⟨fun mx => ⟨_, find_points_peaks_eq hough mx [] (wf_shape hwf), key mx⟩, ?_⟩
  intro img circ cs1 iwf h
  obtain ⟨hw, _⟩ := find_points_hough_dims img circ [] cs1 hough (wf_shape iwf) h
  obtain ⟨_, mx1, _, hp1⟩ := find_points_parts img circ [] cs1 hough h
  rw [find_points_peaks_eq hough mx1 [] (wf_shape hwf)] at hp1
  cases hp1
  rw [← hw]
  exact key mx1

theorem find_points_centers_order_witness :
    ∃ cs1, find_points_peaks hough7 83 [] = some cs1 ∧
      (cs1.map (center_index hough7.w)).Pairwise (· > ·) :=
  (find_points_centers_order hough7 (by decide)).1 83

/-- C18: on every vote raster of width `w` and height `h` and for every maximum, the peak
loop of `find_points` returns the list it was given with centres `added` in front of it;
every added centre `(x, y)` is the centre `(i mod w, i div w)` of an interior index `i`,
with `x < w`, `1 ≤ y ≤ h-2` and `y*w + x = i`; and no two added centres have the same
pixel index. The list of a run of `find_points` that returns the raster is the list of
the peak loop on it, for the maximum of the run. -/
theorem find_points_centers_inside (hough : ppm) (cs : PLL) (hwf : hough.wf) :
    (∀ mx, ∃ added, find_points_peaks hough mx cs = some (added ++ cs) ∧
      (∀ c, c ∈ added → ∃ i, hough.w ≤ i ∧ i < hough.w * hough.h - hough.w ∧
        c = (i % hough.w, i / hough.w) ∧ c.2 * hough.w + c.1 = i ∧
        c.1 < hough.w ∧ 1 ≤ c.2 ∧ c.2 ≤ hough.h - 2) ∧
      (added.map (center_index hough.w)).Nodup) ∧
    ∀ (img : ppm) (circ : Nat → Int × Int) (cs1 : PLL), img.wf →
      find_points img circ cs = some (hough, cs1) →
      hough.w = img.w ∧ hough.h = img.h ∧
        ∃ mx, find_points_peaks hough mx cs = some cs1 := by
  constructor
  · intro mx
    refine ⟨_, find_points_peaks_eq hough mx cs (wf_shape hwf), ?_, ?_⟩
    · intro c hc
      simp only [List.mem_map, List.mem_reverse, List.mem_filter] at hc
      obtain ⟨i, ⟨hi, _⟩, e⟩ := hc
      have hb := interior_bounds hough i hi
      have hwpos : 0 < hough.w := by omega
      subst e
      refine ⟨i, hb.1, hb.2.2.2, rfl, Nat.div_add_mod' i hough.w, Nat.mod_lt _ hwpos, ?_, ?_⟩
      · exact (Nat.le_div_iff_mul_le hwpos).mpr (by simpa using hb.1)
      · have h3 : i < hough.w * (hough.h - 1) := by
          rw [Nat.mul_sub_one]; exact hb.2.2.2
        have := Nat.div_lt_of_lt_mul h3
        change i / hough.w ≤ hough.h - 2
        omega
    · rw [List.map_map, center_index_center, List.map_id, List.nodup_reverse]
      exact List.Nodup.filter _ (List.nodup_range' _ _)
  · intro img circ cs1 iwf h
    obtain ⟨hw, hh⟩ := find_points_hough_dims img circ cs cs1 hough (wf_shape iwf) h
    obtain ⟨_, mx1, _, hp1⟩ := find_points_parts img circ cs cs1 hough h
    exact ⟨hw, hh, mx1, hp1⟩

theorem find_points_centers_inside_witness :
    ∃ added, find_points_peaks hough7 83 [(1, 1)] = some (added ++ [(1, 1)]) ∧
      (∀ c, c ∈ added → ∃ i, hough7.w ≤ i ∧ i < hough7.w * hough7.h - hough7.w ∧
        c = (i % hough7.w, i / hough7.w) ∧ c.2 * hough7.w + c.1 = i ∧
        c.1 < hough7.w ∧ 1 ≤ c.2 ∧ c.2 ≤ hough7.h - 2) ∧
      (added.map (center_index hough7.w)).Nodup :=
  (find_points_centers_inside hough7 [(1, 1)] (by decide)).1 83

/-! ## The border rows of the vote raster -/

/-- A run of `find_points` that returns has had no vote outside the buffers. -/
theorem in_range_of_returns (img : ppm) (circ : Nat → Int × Int) (cs : PLL)
    (r : ppm × PLL) (hs : shape img (img.w * img.h))
    (h : find_points img circ cs = some r) : in_range img circ := by
  intro i d hi he hd hp
  by_contra hneg
  have ht : target img.w circ i d < 0 ∨
      ((img.w * img.h : Nat) : Int) ≤ target img.w circ i d := by omega
  rw [find_points_leaves img circ cs hs i d hi he hd hp ht] at h
  cases h

/-- C7, amended: when no vote of an interior edge pixel that passes both checks of
`draw_circle` has its target outside `[0, w*h)`, `find_points` returns a vote raster. The
Hough accumulation draws circles around interior edge pixels only, but the circles are
clipped to the whole raster `[0, w*h)`, not to the interior: a pixel of the first or of
the last row of the vote raster is zero in all three channels exactly when no vote of an
interior edge pixel lands on it. -/
theorem find_points_border_rows (img : ppm) (circ : Nat → Int × Int) (cs : PLL)
    (hwf : img.wf) (hr : in_range img circ) :
    ∃ hough cs1, find_points img circ cs = some (hough, cs1) ∧
      ∀ p, p < img.w * img.h → (p < img.w ∨ img.w * img.h - img.w ≤ p) →
        (hough.px p = (0, 0, 0) ↔ votes img circ p = 0) := by
  obtain ⟨hough, cs1, h⟩ := find_points_returns img circ cs (wf_shape hwf) hr
  obtain ⟨⟨_, _, _, hpx⟩, _⟩ := find_points_spec img circ cs cs1 hough (wf_shape hwf) h
  refine ⟨hough, cs1, h, ?_⟩
  intro p hp _
  rw [hpx p hp]
  have e : min 255 (votes img circ p) = 0 ↔ votes img circ p = 0 := by
    rcases Nat.le_total 255 (votes img circ p) with c | c
    · rw [Nat.min_eq_left c]
      constructor <;> intro e <;> omega
    · rw [Nat.min_eq_right c]
  simp only [Prod.mk.injEq, e, and_self]

theorem find_points_border_rows_witness :
    ∃ hough cs1, find_points edge7 circ15 [] = some (hough, cs1) ∧
      ∀ p, p < edge7.w * edge7.h → (p < edge7.w ∨ edge7.w * edge7.h - edge7.w ≤ p) →
        (hough.px p = (0, 0, 0) ↔ votes edge7 circ15 p = 0) :=
  find_points_border_rows edge7 circ15 [] (by decide)
    (in_range_of_returns edge7 circ15 [] _ (wf_shape (by decide)) find_points_edge7)

/-! ## The vote raster of every run -/

end OGR
